import Mathlib

/-!
Verification of the candidate-lattice builder, overlap remover, lookup cache and
noun-predicator disambiguator of the `soynlp` dictionary-driven tagger
(`soynlp/postagger/newstagger/_template.py` and `soynlp/pos/_pos.py`).

Python strings are embedded as `List Char`, Python dicts as insertion-ordered
association lists, and the two external collaborators that are not part of the
core sources (the `Lemmatizer` and the Hangul character classifier) are modelled
from the spec as explicit parameters respectively a predicate on characters.
-/

namespace Soynlp

/-! ## Embedded definitions -/

/-- A Python string: a list of characters. -/
abbrev Word := List Char

/-- Embeds the `Eojeol` namedtuple of `_template.py`: a Segment Record with left/right
texts `w0`/`w1`, left/right tags `t0`/`t1` (`t1` is `None` for one-part records),
and character offsets `b` (begin), `m` (mid/split) and `e` (end). -/
structure Eojeol where
  w0 : Word
  w1 : Word
  t0 : String
  t1 : Option String
  b : Nat
  m : Nat
  e : Nat
deriving DecidableEq, Repr

/-- The tag dictionary `pos_to_words`: an insertion-ordered mapping from tag name to
the list of known words of that tag (a Python `dict` of sets; only membership and
iteration order are observable in the embedded code). -/
abbrev Dic := List (String × List Word)

/-- Embeds `check_tag`: `word in pos_to_words.get(tag, {})`. -/
def check_tag (w : Word) (tag : String) (dic : Dic) : Bool :=
  match dic.find? (fun p => decide (p.1 = tag)) with
  | some p => decide (w ∈ p.2)
  | none => false

/-- Embeds `get_tag`: `tuple(tag for tag, words in pos_to_words.items() if word in words)`. -/
def get_tag (w : Word) (dic : Dic) : List String :=
  (dic.filter (fun p => decide (w ∈ p.2))).map (fun p => p.1)

/-- Modelled from the spec: `character_is_complete_korean` is imported from
`soynlp.hangle`, which is not among the core sources; per §4.4 of the spec a
substring is validated to consist entirely of complete Korean syllable
characters, i.e. codepoints in the Hangul-syllables block U+AC00..U+D7A3. -/
def character_is_complete_korean (c : Char) : Bool :=
  decide (0xAC00 ≤ c.toNat) && decide (c.toNat ≤ 0xD7A3)

/-- Modelled from the spec: one inflection analysis `(stem, ending, tag0, tag1)`
returned by the external Lemmatizer collaborator (`soynlp.lemmatizer`, not among
the core sources). -/
structure LemmaAnalysis where
  w0 : Word
  w1 : Word
  t0 : String
  t1 : Option String
deriving DecidableEq, Repr

/-- Modelled from the spec: the external Lemmatizer collaborator, as consumed through
its narrow interface `analyze(substring) -> sequence of (stem, ending, tag0, tag1)`. -/
abbrev Lemmatizer := Word → List LemmaAnalysis

/-- Embeds the inner `is_hangle` of `lemmatize`. -/
def is_hangle (w : Word) : Bool := w.all character_is_complete_korean

/-- Embeds `lemmatize(word, lemmatizer, offset)` (with the default `ensure_hangle=False`,
which is what every call site uses): if the word is not wholly composed of complete
Korean syllables the call short-circuits to `[]`; otherwise every analysis
`(w0, w1, t0, t1)` becomes `Eojeol(w0, w1, t0, t1, offset, offset+len(w0), offset+len(word))`. -/
def lemmatize (word : Word) (lemmatizer : Lemmatizer) (offset : Nat) : List Eojeol :=
  if is_hangle word then
    (lemmatizer word).map (fun a =>
      ⟨a.w0, a.w1, a.t0, a.t1, offset, offset + a.w0.length, offset + word.length⟩)
  else []

/-- Embeds one iteration (split index `i`) of the loop of `lr_lookup`:
the Noun+Josa branch, then the (Noun or predicate-left) + predicate-right branch. -/
def lrStep (lemmatizer : Lemmatizer) (dic : Dic) (offset n : Nat) (eojeol : Word)
    (bindex : List (List Eojeol)) (i : Nat) : List (List Eojeol) :=
  let l := eojeol.take i
  let r := eojeol.drop i
  let bindex1 :=
    if check_tag l "Noun" dic && check_tag r "Josa" dic then
      bindex.set 0
        (bindex.getD 0 [] ++ [⟨l, r, "Noun", some "Josa", offset, offset + i, offset + n⟩])
    else bindex
  let l_pred := lemmatize l lemmatizer offset
  let r_pred := lemmatize r lemmatizer (offset + i)
  if (check_tag l "Noun" dic || decide (l_pred ≠ [])) && decide (r_pred ≠ []) then
    let bindex2 :=
      if check_tag l "Noun" dic then
        bindex1.set 0
          (bindex1.getD 0 [] ++ [⟨l, [], "Noun", none, offset, offset + i, offset + i⟩])
      else
        bindex1.set 0 (bindex1.getD 0 [] ++ l_pred)
    bindex2.set i (bindex2.getD i [] ++ r_pred)
  else bindex1

/-- Embeds `lr_lookup(eojeol, lemmatizer, dic, offset)`: bucket 0 starts with the
predicate analyses of the whole token, then split indices `i = 1 .. n` are scanned. -/
def lr_lookup (eojeol : Word) (lemmatizer : Lemmatizer) (dic : Dic) (offset : Nat) :
    List (List Eojeol) :=
  let n := eojeol.length
  let bindex := (List.replicate n ([] : List Eojeol)).set 0 (lemmatize eojeol lemmatizer offset)
  (List.range' 1 n).foldl (lrStep lemmatizer dic offset n eojeol) bindex

/-- Embeds the inner `exist_overlap_l(b, e, bindex)` of `remove_sub`: scans the buckets
at list positions `i - offset` for `i in range(b, e)` and reports whether any record
there has `b < record.m` and `record.b < e`. -/
def exist_overlap_l (offset b e : Nat) (bindex : List (List Eojeol)) : Bool :=
  (List.range' b (e - b)).any fun i =>
    (bindex.getD (i - offset) []).any fun r => decide (b < r.m) && decide (r.b < e)

/-- Embeds the inner `skip(eojeol, bm_pair, me_pair)` of `remove_sub`: a one-part record
is skipped when some pair matches its `(b, m, t0)`; a two-part record is skipped when
some pair has the same split `m`, a strictly larger end, and the same right tag `t1`. -/
def skip (r : Eojeol) (bm : List (Nat × Nat × String)) (me : List (Nat × Nat × Option String)) :
    Bool :=
  (bm.any fun p =>
    decide (r.w1 = []) && decide (r.b = p.1) && decide (r.m = p.2.1) && decide (r.t0 = p.2.2))
  || (me.any fun p =>
    decide (r.w1 ≠ []) && decide (r.m = p.1) && decide (r.e < p.2.1) && decide (r.t1 = p.2.2))

/-- Embeds one iteration (bucket `b`) of the loop of `remove_sub`: the non-overlapped
two-part records of bucket `b` of the current (partially rewritten, since the Python
loop mutates `bindex` in place) lattice contribute their `(b, m, t0)` and `(m, e, t1)`
pairs, then bucket `b` is replaced by its records that are not skipped. -/
def removeSubStep (offset : Nat) (acc : List (List Eojeol)) (b : Nat) : List (List Eojeol) :=
  let eojeols := acc.getD b []
  let contrib := eojeols.filter fun r =>
    decide (r.w1 ≠ []) && !(exist_overlap_l offset r.m r.e acc)
  let bm := contrib.map fun r => (r.b, r.m, r.t0)
  let me := contrib.map fun r => (r.m, r.e, r.t1)
  acc.set b (eojeols.filter fun r => !(skip r bm me))

/-- Embeds `remove_sub(bindex, offset)`: the buckets are rewritten in place in
increasing order of their start index. -/
def remove_sub (offset : Nat) (bindex : List (List Eojeol)) : List (List Eojeol) :=
  (List.range bindex.length).foldl (removeSubStep offset) bindex

/-- The non-overlap condition exactly as the spec words it: no record anywhere in the
lattice (in any bucket) has a begin strictly less than `e` and a mid strictly greater
than `m`. -/
def claimNonOverlapped (bindex : List (List Eojeol)) (m e : Nat) : Prop :=
  ∀ bucket ∈ bindex, ∀ r ∈ bucket, ¬(r.b < e ∧ m < r.m)

instance (bindex : List (List Eojeol)) (m e : Nat) : Decidable (claimNonOverlapped bindex m e) := by
  unfold claimNonOverlapped
  infer_instance

/-- The non-overlap condition restricted to the buckets the code actually scans: no
record whose begin lies in `[m, e)` has a mid strictly greater than `m`. -/
def codeNonOverlapped (bindex : List (List Eojeol)) (m e : Nat) : Prop :=
  ∀ bucket ∈ bindex, ∀ r ∈ bucket, ¬(m ≤ r.b ∧ r.b < e ∧ m < r.m)

/-- Concrete lattice for the overlap-scan counterexample: bucket 0 holds a one-part
record reaching mid 3, bucket 1 holds a two-part record with split 2 and end 3. -/
def bindexC1 : List (List Eojeol) :=
  [[⟨['가'], [], "Noun", none, 0, 3, 3⟩],
   [⟨['나'], ['다'], "Noun", some "Josa", 1, 2, 3⟩],
   [], []]

/-- Concrete dictionary for the `"사람이다"` example: the Noun set contains `"사람"`. -/
def dicSaram : Dic := [("Noun", ["사람".data])]

/-- Concrete lemmatizer for the `"사람이다"` example: its predicate data recognizes
exactly `"이다"` as a predicator (copula stem `"이"` plus ending `"다"`). -/
def lemSaram : Lemmatizer := fun w =>
  if w = "이다".data then [⟨"이".data, "다".data, "Adjective", some "Eomi"⟩] else []

/-- Well-formedness of a lattice as produced by the Template Lookup Strategy's
combination step at base `offset`: records of bucket `j` begin at `offset + j`,
the split lies strictly after the begin, ends stay within the lattice, the right
tag is present exactly when the right text is, and the split equals the end for
one-part records and is strictly before it for two-part records. -/
def latticeWF (offset : Nat) (bindex : List (List Eojeol)) : Prop :=
  ∀ j, ∀ r ∈ bindex.getD j [], r.b = offset + j ∧ r.b < r.m ∧ r.e ≤ offset + bindex.length ∧
    (r.w1 = [] ↔ r.t1 = none) ∧ (r.w1 = [] → r.m = r.e) ∧ (r.w1 ≠ [] → r.m < r.e)

/-- Bucketwise containment of two lattices. -/
def bucketsSub (A B : List (List Eojeol)) : Prop :=
  ∀ j, ∀ r ∈ A.getD j [], r ∈ B.getD j []

/-- Two lattices with the same buckets-emptiness pattern. -/
def sameEmpty (A B : List (List Eojeol)) : Prop :=
  ∀ j, (A.getD j [] = [] ↔ B.getD j [] = [])

/-- The pair-contributing records of a bucket: two-part and non-overlapped with
respect to the (current) lattice `acc`. -/
def contribOf (offset : Nat) (acc : List (List Eojeol)) (eojeols : List Eojeol) :
    List Eojeol :=
  eojeols.filter fun r => decide (r.w1 ≠ []) && !(exist_overlap_l offset r.m r.e acc)

/-- The survival predicate of a record of a bucket under the pairs contributed by
`contribOf`. -/
def keepPred (offset : Nat) (acc : List (List Eojeol)) (eojeols : List Eojeol) (r : Eojeol) :
    Bool :=
  !(skip r ((contribOf offset acc eojeols).map fun r => (r.b, r.m, r.t0))
      ((contribOf offset acc eojeols).map fun r => (r.m, r.e, r.t1)))

/-- Embeds the span-enumeration step of `template_lookup`: for every start `b` and end
`e in range(b+1, min(b+max_len, n)+1)`, the substring `eojeol[b:e]` is recorded in
bucket `b` once per dictionary tag it carries, as the raw tuple `(sub, tag, b, e)`. -/
def templateRaw (eojeol : Word) (dic : Dic) (max_len : Nat) :
    List (List (Word × String × Nat × Nat)) :=
  let n := eojeol.length
  (List.range n).map fun b =>
    (List.range' (b + 1) (min (b + max_len) n + 1 - (b + 1))).flatMap fun e =>
      (get_tag ((eojeol.drop b).take (e - b)) dic).map fun tag =>
        ((eojeol.drop b).take (e - b), tag, b, e)

/-- Set insertion preserving first-insertion order: a deterministic stand-in for the
Python `set` accumulating the pending predicators (only membership is observable in
the claims; Python's own set iteration order is unspecified). -/
def insertNew (acc : List Eojeol) (x : Eojeol) : List Eojeol :=
  if x ∈ acc then acc else acc ++ [x]

/-- Embeds the `predicators` accumulation of `template_lookup`: every span's
lemmatization results, collected into a set. -/
def templatePredicators (eojeol : Word) (lemmatizer : Lemmatizer) (max_len offset : Nat) :
    List Eojeol :=
  let n := eojeol.length
  (List.range n).foldl (fun acc b =>
    (List.range' (b + 1) (min (b + max_len) n + 1 - (b + 1))).foldl (fun acc e =>
      (lemmatize ((eojeol.drop b).take (e - b)) lemmatizer (offset + b)).foldl insertNew acc)
      acc) []

/-- Embeds the records produced for one raw tagged span and one template in the
combination step of `template_lookup`: a one-part record for a matching single-tag
template, and one two-part record per matching span of the bucket at the first
span's end for a two-tag template (guarded by `e < n`). -/
def templateRecords (bindex : List (List (Word × String × Nat × Nat))) (n offset : Nat)
    (entry : Word × String × Nat × Nat) (t : List String) : List Eojeol :=
  match t with
  | [ta] =>
    if entry.2.1 = ta then
      [⟨entry.1, [], entry.2.1, none, offset + entry.2.2.1, offset + entry.2.2.2,
        offset + entry.2.2.2⟩]
    else []
  | [ta, tb] =>
    if entry.2.2.2 < n ∧ entry.2.1 = ta then
      (bindex.getD entry.2.2.2 []).filterMap fun q =>
        if q.2.1 = tb then
          some ⟨entry.1, q.1, entry.2.1, some q.2.1, offset + entry.2.2.1,
            offset + q.2.2.1, offset + q.2.2.2⟩
        else none
    else []
  | _ => []

/-- Embeds the combination step (`# as Eojeol`) of `template_lookup`: every raw tagged
span of every bucket is combined with every template, each produced record being
appended to the bucket of the span's begin. -/
def templateStep2 (eojeol : Word) (dic : Dic) (templates : List (List String))
    (max_len offset : Nat) : List (List Eojeol) :=
  let n := eojeol.length
  let bindex := templateRaw eojeol dic max_len
  bindex.foldl (fun acc morphs =>
    morphs.foldl (fun acc entry =>
      templates.foldl (fun acc t =>
        acc.set entry.2.2.1
          (acc.getD entry.2.2.1 [] ++ templateRecords bindex n offset entry t)) acc) acc)
    (List.replicate n [])

/-- Embeds `template_lookup(eojeol, lemmatizer, dic, templates, max_len, offset)`:
the combined lattice is pruned by `remove_sub` and then the pending predicators are
inserted into the bucket of their own begin, unfiltered. -/
def template_lookup (eojeol : Word) (lemmatizer : Lemmatizer) (dic : Dic)
    (templates : List (List String)) (max_len offset : Nat) : List (List Eojeol) :=
  let bindex2 := remove_sub offset (templateStep2 eojeol dic templates max_len offset)
  (templatePredicators eojeol lemmatizer max_len offset).foldl
    (fun acc w => acc.set (w.b - offset) (acc.getD (w.b - offset) [] ++ [w])) bindex2

/-- The well-formedness facts a record must satisfy to sit in bucket `j` of a
well-formed lattice of `n` buckets based at `offset`. -/
def wfAt (offset n j : Nat) (r : Eojeol) : Prop :=
  r.b = offset + j ∧ r.b < r.m ∧ r.e ≤ offset + n ∧
  (r.w1 = [] ↔ r.t1 = none) ∧ (r.w1 = [] → r.m = r.e) ∧ (r.w1 ≠ [] → r.m < r.e)

/-- The Segment Record invariant of the spec's data model: `begin ≤ mid ≤ end`, and
the right text is empty iff the right tag is absent iff `mid = end`. -/
def goodRecord (r : Eojeol) : Prop :=
  r.b ≤ r.m ∧ r.m ≤ r.e ∧ (r.w1 = [] ↔ r.t1 = none) ∧ (r.w1 = [] ↔ r.m = r.e)

instance (r : Eojeol) : Decidable (goodRecord r) := by
  unfold goodRecord
  infer_instance

/-- A lemmatizer whose analyses are consistent with the surface form: the stem is no
longer than the analysed substring, and the ending is empty exactly when the second
tag is absent exactly when the stem covers the whole substring. -/
def LemOk (lemmatizer : Lemmatizer) : Prop :=
  ∀ w, ∀ a ∈ lemmatizer w, a.w0.length ≤ w.length ∧ (a.w1 = [] ↔ a.t1 = none) ∧
    (a.w1 = [] ↔ a.w0.length = w.length)

/-- A dictionary all of whose words are nonempty strings. -/
def DicOk (dic : Dic) : Prop := ∀ p ∈ dic, ∀ w ∈ p.2, w ≠ []

/-- All records of all buckets of a lattice satisfy the Segment Record invariant. -/
def allGood (L : List (List Eojeol)) : Prop := ∀ j, ∀ r ∈ L.getD j [], goodRecord r

/-- A lemmatizer that reports a stem longer than the analysed substring. -/
def lemBad : Lemmatizer := fun _ => [⟨['가', '가'], [], "Verb", none⟩]

/-- Modelled from the spec: `remove_doublespace` (from `soynlp.normalizer`, not among
the core sources) collapses consecutive multiple spaces into a single space. -/
def remove_doublespace : List Char → List Char
  | [] => []
  | [c] => [c]
  | c1 :: c2 :: rest =>
    if c1 = ' ' ∧ c2 = ' ' then remove_doublespace (c2 :: rest)
    else c1 :: remove_doublespace (c2 :: rest)

/-- Helper of `splitWords`: accumulates the current (reversed) token. -/
def splitWordsAux : List Char → Word → List Word
  | [], cur => if cur = [] then [] else [cur.reverse]
  | c :: rest, cur =>
    if c = ' ' then
      if cur = [] then splitWordsAux rest []
      else cur.reverse :: splitWordsAux rest []
    else splitWordsAux rest (c :: cur)

/-- Modelled from Python's `str.split()` as used by `sentence_lookup`: split on spaces,
discarding empty tokens. -/
def splitWords (s : List Char) : List Word := splitWordsAux s []

/-- Embeds `LRLookup.sentence_lookup`: the sentence is whitespace-normalized, split
into tokens, and each token is looked up at offset `len(sent)`, i.e. the number of
buckets accumulated so far. -/
def LRLookup_sentence_lookup (lemmatizer : Lemmatizer) (dic : Dic)
    (sentence : List Char) : List (List Eojeol) :=
  (splitWords (remove_doublespace sentence)).foldl
    (fun sent tok => sent ++ lr_lookup tok lemmatizer dic sent.length) []

/-- The same sentence loop with each token looked up at the cumulative character count
of the preceding tokens (spaces excluded); stated from the spec's words for
comparison with the code's `len(sent)` offsets. -/
def sentence_lookup_charoffsets (lemmatizer : Lemmatizer) (dic : Dic)
    (sentence : List Char) : List (List Eojeol) :=
  ((splitWords (remove_doublespace sentence)).foldl
    (fun p tok => (p.1 ++ lr_lookup tok lemmatizer dic p.2, p.2 + tok.length))
    (([] : List (List Eojeol)), 0)).1

/-- Concrete lemmatizer for the offsets counterexample: recognizes exactly `"나"`. -/
def lemNa : Lemmatizer := fun w =>
  if w = ['나'] then [⟨['나'], [], "Verb", none⟩] else []

/-- Embeds `LRLookup._check_max_word_len`: raises (`Except.error`) when the
tag-to-words mapping itself is empty; otherwise folds the maximum word length over
all nonempty word sets into `max_word_len`. -/
def check_max_word_len (pos_to_words : Dic) (max_word_len : Nat) : Except String Nat :=
  if pos_to_words.isEmpty then Except.error "pos_to_words should not be empty"
  else Except.ok (pos_to_words.foldl
    (fun acc p => if p.2.isEmpty then acc
      else max (p.2.foldl (fun m w => max m w.length) 0) acc) max_word_len)

/-- Embeds the `max_word_len` configuration logic of `LRLookup.__init__`: the
derivation runs exactly when no explicit positive `max_word_len` was supplied (the
`lemmatizer is None` branch only constructs the external Lemmatizer collaborator and
does not affect `max_word_len`). -/
def LRLookup_init_max_word_len (pos_to_words : Dic) (max_word_len : Nat) :
    Except String Nat :=
  if max_word_len = 0 then check_max_word_len pos_to_words max_word_len
  else Except.ok max_word_len

/-- The result type stored by the cache: one lattice (list of buckets) per token. -/
abbrev LookupResult := List (List Eojeol)

/-- Lookup in an insertion-ordered association list (a Python `dict` read). -/
def dictGet {β : Type} : List (Word × β) → Word → Option β
  | [], _ => none
  | p :: ps, k => if p.1 = k then some p.2 else dictGet ps k

/-- `d.get(k, v0)` of a Python `dict`. -/
def dictGetD {β : Type} (d : List (Word × β)) (k : Word) (v0 : β) : β :=
  (dictGet d k).getD v0

/-- `d[k] = v` of a Python `dict`: updates the existing entry in place, else appends. -/
def dictInsert {β : Type} : List (Word × β) → Word → β → List (Word × β)
  | [], k, v => [(k, v)]
  | p :: ps, k, v => if p.1 = k then (k, v) :: ps else p :: dictInsert ps k v

/-- Embeds the state of `LookupBuffer`: the result buffer and the use counter, two
parallel mappings keyed by token. -/
structure LookupBuffer where
  buffer : List (Word × LookupResult)
  counter : List (Word × Nat)
deriving Repr

/-- Embeds `LookupBuffer.__init__(lookup, preanalyzed)`: the buffer starts as the
preanalyzed mapping and every use counter starts at 0. -/
def LookupBuffer.init (preanalyzed : List (Word × LookupResult)) : LookupBuffer :=
  ⟨preanalyzed, preanalyzed.map (fun p => (p.1, 0))⟩

/-- Embeds `LookupBuffer.eojeol_lookup(eojeol, offset)` with the wrapped strategy
modelled as the pure function `lookup`: a zero use count is a miss (delegate, store,
count 1); otherwise the stored result is returned and the count incremented (the
Python `self.buffer[eojeol]` read cannot fail on states where a positive count
implies a stored entry; the model reads with default `[]`). -/
def eojeol_lookup (lookup : Word → Nat → LookupResult) (st : LookupBuffer)
    (eojeol : Word) (offset : Nat) : LookupResult × LookupBuffer :=
  let count := dictGetD st.counter eojeol 0
  if count = 0 then
    let result := lookup eojeol offset
    (result, ⟨dictInsert st.buffer eojeol result, dictInsert st.counter eojeol (count + 1)⟩)
  else
    (dictGetD st.buffer eojeol [], ⟨st.buffer, dictInsert st.counter eojeol (count + 1)⟩)

/-- Embeds `LookupBuffer.sentence_lookup`: tokens of the normalized sentence are
looked up through the cache at offset `len(sent)`, threading the cache state. -/
def LookupBuffer_sentence_lookup (lookup : Word → Nat → LookupResult) (st : LookupBuffer)
    (sentence : List Char) : LookupResult × LookupBuffer :=
  (splitWords (remove_doublespace sentence)).foldl
    (fun p tok =>
      let r := eojeol_lookup lookup p.2 tok p.1.length
      (p.1 ++ r.1, r.2))
    ([], st)

/-- Embeds `LookupBuffer.compatify_buffer(topk)`: when more than `topk` entries exist,
the counter is rebuilt from the stable sort by decreasing use count truncated to
`topk` entries, and the buffer keeps the entries whose key survived. -/
def compatify_buffer (st : LookupBuffer) (topk : Nat) : LookupBuffer :=
  if st.counter.length ≤ topk then st
  else
    let counter2 := (st.counter.mergeSort (fun a b => decide (b.2 ≤ a.2))).take topk
    ⟨st.buffer.filter (fun p => counter2.any (fun q => decide (q.1 = p.1))), counter2⟩

/-- The wrapped strategy used by the cache counterexample: the returned record's
offsets depend on the offset argument. -/
def lookupShift : Word → Nat → LookupResult :=
  fun w offset => [[⟨w, [], "Noun", none, offset, offset + w.length, offset + w.length⟩]]

/-- Concrete cache state for the eviction witness: three tokens with use counts
1, 3 and 2. -/
def stC9 : LookupBuffer :=
  ⟨[(['a'], []), (['b'], []), (['c'], [])],
   [(['a'], 1), (['b'], 3), (['c'], 2)]⟩

/-- Embeds the inner `is_pos_feature(r)` of `POSExtractor._is_noun_predicator_compound`:
membership in the predicator set or in the domain (`_pos_features`) or common
(`_common_features`) feature sets. -/
def is_pos_feature (predicators pos_features common_features : List Word) (r : Word) :
    Bool :=
  decide (r ∈ predicators) || decide (r ∈ pos_features) || decide (r ∈ common_features)

/-- Embeds the inner `is_noun_josa(prefix)`: the prefix is a known noun, or some inner
split at `i in range(2, len(prefix))` has a known noun on the left and a
predicator-or-feature string on the right. -/
def is_noun_josa (nouns predicators pos_features common_features : List Word)
    (pfx : Word) : Bool :=
  decide (pfx ∈ nouns) ||
  (List.range' 2 (pfx.length - 2)).any (fun i =>
    decide (pfx.take i ∈ nouns) &&
      is_pos_feature predicators pos_features common_features (pfx.drop i))

/-- Embeds `POSExtractor._is_noun_predicator_compound(noun, nouns, predicators)`:
the candidate itself is a predicator, or some split `i in range(-1, -n+1, -1)` —
i.e. a prefix of length `j = n + i` running from `n-1` down to `2` (the `any` below
scans the same splits in ascending order, which does not change the result) — has
either predicator+predicator or noun-or-josa-prefix+predicator form. -/
def is_noun_predicator_compound (nouns predicators pos_features common_features : List Word)
    (noun : Word) : Bool :=
  if noun ∈ predicators then true
  else
    (List.range' 2 (noun.length - 2)).any (fun j =>
      (decide (noun.take j ∈ predicators) && decide (noun.drop j ∈ predicators)) ||
      (is_noun_josa nouns predicators pos_features common_features (noun.take j) &&
        decide (noun.drop j ∈ predicators)))

/-- Embeds `POSExtractor._remove_confused_nouns`: partition the scored noun candidates
into confirmed nouns and removed compounds. -/
def remove_confused_nouns {S : Type} (nouns : List (Word × S))
    (predicators pos_features common_features : List Word) :
    List (Word × S) × List (Word × S) :=
  let keys := nouns.map (fun p => p.1)
  (nouns.filter (fun p =>
      !(is_noun_predicator_compound keys predicators pos_features common_features p.1)),
   nouns.filter (fun p =>
      is_noun_predicator_compound keys predicators pos_features common_features p.1))

/-- The decomposability condition as the claim words it: SOME inner split (inner-left
of any length, including a single character) with a known noun on the left and a
predicator-or-feature string on the right. -/
def claimDecomposable (nouns predicators pos_features common_features : List Word)
    (pfx : Word) : Prop :=
  ∃ i, 1 ≤ i ∧ i < pfx.length ∧ pfx.take i ∈ nouns ∧
    (pfx.drop i ∈ predicators ∨ pfx.drop i ∈ pos_features ∨ pfx.drop i ∈ common_features)

/-- The compound condition as the claim words it. -/
def claimCompound (nouns predicators pos_features common_features : List Word)
    (noun : Word) : Prop :=
  noun ∈ predicators ∨
  ∃ j, 2 ≤ j ∧ j < noun.length ∧
    ((noun.take j ∈ predicators ∧ noun.drop j ∈ predicators) ∨
     ((noun.take j ∈ nouns ∨
        claimDecomposable nouns predicators pos_features common_features (noun.take j)) ∧
      noun.drop j ∈ predicators))

/-- The compound condition with the decomposability check restricted to inner-left
parts of length at least 2, which is what the code's `range(2, len(prefix))` scans. -/
def amendedDecomposable (nouns predicators pos_features common_features : List Word)
    (pfx : Word) : Prop :=
  ∃ i, 2 ≤ i ∧ i < pfx.length ∧ pfx.take i ∈ nouns ∧
    (pfx.drop i ∈ predicators ∨ pfx.drop i ∈ pos_features ∨ pfx.drop i ∈ common_features)

/-- The claim's compound condition amended: inner splits start at inner-left length 2. -/
def amendedCompound (nouns predicators pos_features common_features : List Word)
    (noun : Word) : Prop :=
  noun ∈ predicators ∨
  ∃ j, 2 ≤ j ∧ j < noun.length ∧
    ((noun.take j ∈ predicators ∧ noun.drop j ∈ predicators) ∨
     ((noun.take j ∈ nouns ∨
        amendedDecomposable nouns predicators pos_features common_features (noun.take j)) ∧
      noun.drop j ∈ predicators))

/-- Concrete data for the C8 counterexample. -/
def nounsC8 : List Word := [['가'], ['가', '나', '다', '라']]

/-- Concrete predicator set for the C8 counterexample. -/
def predsC8 : List Word := [['라']]

/-- Concrete domain feature set for the C8 counterexample. -/
def posfC8 : List Word := [['나', '다']]

/-! ## Theorems -/

theorem getD_set_of_ne {α : Type} (l : List α) (i j : Nat) (x d : α) (h : i ≠ j) :
    (l.set i x).getD j d = l.getD j d := by
  simp [List.getD, List.getElem?_set_ne h]

theorem getD_set_self_of_lt {α : Type} (l : List α) (i : Nat) (x d : α) (h : i < l.length) :
    (l.set i x).getD i d = x := by
  simp [List.getD, List.getElem?_set_self h]

theorem getD_of_length_le {α : Type} (l : List α) (i : Nat) (d : α) (h : l.length ≤ i) :
    l.getD i d = d := by
  simp [List.getD, List.getElem?_eq_none h]

theorem set_getD_self {α : Type} (l : List α) (i : Nat) (d : α) :
    l.set i (l.getD i d) = l := by
  induction l generalizing i with
  | nil => simp
  | cons a t ih =>
    cases i with
    | zero => simp [List.getD]
    | succ i => simpa [List.getD] using ih i

theorem foldl_inv {α β : Type} {P : β → Prop} {f : β → α → β} :
    ∀ (xs : List α) (acc : β), (∀ a x, x ∈ xs → P a → P (f a x)) → P acc → P (xs.foldl f acc) := by
  intro xs
  induction xs with
  | nil => intro acc _ hP; simpa using hP
  | cons x t ih =>
    intro acc h hP
    simpa using ih (f acc x) (fun a y hy hP0 => h a y (List.mem_cons_of_mem _ hy) hP0)
      (h acc x (List.mem_cons_self x t) hP)

/-- A list of Nats maximizing `Eojeol.e` exists in every nonempty bucket. -/
theorem exists_max_e (l : List Eojeol) (h : l ≠ []) :
    ∃ r ∈ l, ∀ s ∈ l, s.e ≤ r.e := by
  induction l with
  | nil => exact absurd rfl h
  | cons a t ih =>
    rcases eq_or_ne t [] with rfl | ht
    · exact ⟨a, List.mem_cons_self a [], by simp⟩
    · obtain ⟨r, hr, hmax⟩ := ih ht
      rcases le_total a.e r.e with hle | hle
      · exact ⟨r, List.mem_cons_of_mem a hr, by
          intro s hs
          rcases List.mem_cons.mp hs with rfl | hs
          · exact hle
          · exact hmax s hs⟩
      · exact ⟨a, List.mem_cons_self a t, by
          intro s hs
          rcases List.mem_cons.mp hs with rfl | hs
          · exact le_rfl
          · exact (hmax s hs).trans hle⟩

/-- Well-formedness follows from its restriction to in-range buckets. -/
theorem latticeWF_of_forall_lt (offset : Nat) (bindex : List (List Eojeol))
    (h : ∀ j < bindex.length, ∀ r ∈ bindex.getD j [],
      r.b = offset + j ∧ r.b < r.m ∧ r.e ≤ offset + bindex.length ∧
      (r.w1 = [] ↔ r.t1 = none) ∧ (r.w1 = [] → r.m = r.e) ∧ (r.w1 ≠ [] → r.m < r.e)) :
    latticeWF offset bindex := by
  intro j r hr
  rcases lt_or_le j bindex.length with hj | hj
  · exact h j hj r hr
  · rw [getD_of_length_le _ _ _ hj] at hr
    exact absurd hr (List.not_mem_nil r)

theorem latticeWF_of_sub (offset : Nat) {A B : List (List Eojeol)} (hWF : latticeWF offset B)
    (hsub : bucketsSub A B) (hlen : A.length = B.length) : latticeWF offset A := by
  intro j r hr
  simpa [hlen] using hWF j r (hsub j r hr)

/-- In a well-formed lattice the overlap scan only tests bucket emptiness: any record
of a scanned bucket `i - offset` begins at `i` and has a mid strictly above `i`, so
the two conditions of `exist_overlap_l` hold automatically. -/
theorem exist_overlap_l_iff (offset b e : Nat) (bindex : List (List Eojeol))
    (hWF : latticeWF offset bindex) (hb : offset ≤ b) :
    exist_overlap_l offset b e bindex = true ↔
      ∃ i, b ≤ i ∧ i < e ∧ bindex.getD (i - offset) [] ≠ [] := by
  constructor
  · intro h
    simp only [exist_overlap_l, List.any_eq_true, List.mem_range'_1] at h
    obtain ⟨i, ⟨hbi, hie⟩, r, hr, _⟩ := h
    refine ⟨i, hbi, by omega, fun hnil => ?_⟩
    rw [List.getD_eq_getElem?_getD] at hnil hr
    rw [hnil] at hr
    exact List.not_mem_nil r hr
  · rintro ⟨i, hbi, hie, hne⟩
    obtain ⟨r, hr⟩ := List.exists_mem_of_ne_nil _ hne
    obtain ⟨hrb, hbm, -, -, -, -⟩ := hWF (i - offset) r hr
    have hoffi : offset ≤ i := le_trans hb hbi
    have hri : r.b = i := by omega
    simp only [exist_overlap_l, List.any_eq_true, List.mem_range'_1]
    exact ⟨i, ⟨hbi, by omega⟩, r, hr, by
      simp only [Bool.and_eq_true, decide_eq_true_eq]
      omega⟩

/-- Overlap scanning gives the same answer on two well-formed lattices with the same
emptiness pattern. -/
theorem exist_overlap_l_congr (offset b e : Nat) {A B : List (List Eojeol)}
    (hA : latticeWF offset A) (hB : latticeWF offset B) (hse : sameEmpty A B)
    (hb : offset ≤ b) :
    exist_overlap_l offset b e A = exist_overlap_l offset b e B := by
  rcases hAB : exist_overlap_l offset b e B with _ | _
  · rcases hA' : exist_overlap_l offset b e A with _ | _
    · rfl
    · exfalso
      obtain ⟨i, h1, h2, h3⟩ := (exist_overlap_l_iff offset b e A hA hb).mp hA'
      have : B.getD (i - offset) [] ≠ [] := fun hnil => h3 ((hse (i - offset)).mpr hnil)
      have := (exist_overlap_l_iff offset b e B hB hb).mpr ⟨i, h1, h2, this⟩
      simp [hAB] at this
  · obtain ⟨i, h1, h2, h3⟩ := (exist_overlap_l_iff offset b e B hB hb).mp hAB
    have : A.getD (i - offset) [] ≠ [] := fun hnil => h3 ((hse (i - offset)).mp hnil)
    exact (exist_overlap_l_iff offset b e A hA hb).mpr ⟨i, h1, h2, this⟩

theorem removeSubStep_eq (offset : Nat) (acc : List (List Eojeol)) (b : Nat) :
    removeSubStep offset acc b =
      acc.set b ((acc.getD b []).filter (keepPred offset acc (acc.getD b []))) := rfl

theorem removeSubStep_length (offset : Nat) (acc : List (List Eojeol)) (b : Nat) :
    (removeSubStep offset acc b).length = acc.length := by
  rw [removeSubStep_eq]
  exact List.length_set acc b _

theorem removeSubStep_getD_ne (offset : Nat) (acc : List (List Eojeol)) (b j : Nat)
    (h : j ≠ b) : (removeSubStep offset acc b).getD j [] = acc.getD j [] := by
  rw [removeSubStep_eq]
  exact getD_set_of_ne acc b j _ [] (fun hbj => h hbj.symm)

theorem removeSubStep_getD_self (offset : Nat) (acc : List (List Eojeol)) (b : Nat) :
    (removeSubStep offset acc b).getD b [] =
      (acc.getD b []).filter (keepPred offset acc (acc.getD b [])) := by
  rcases lt_or_le b acc.length with h | h
  · rw [removeSubStep_eq]
    exact getD_set_self_of_lt acc b _ [] h
  · have h0 : acc.getD b [] = [] := getD_of_length_le acc b [] h
    rw [removeSubStep_eq, List.set_eq_of_length_le h, h0]
    simp

theorem removeSubStep_sub (offset : Nat) (acc : List (List Eojeol)) (b : Nat) :
    bucketsSub (removeSubStep offset acc b) acc := by
  intro j r hr
  rcases eq_or_ne j b with rfl | hne
  · rw [removeSubStep_getD_self] at hr
    exact List.mem_of_mem_filter hr
  · rwa [removeSubStep_getD_ne offset acc b j hne] at hr

theorem removeSubStep_WF (offset : Nat) (acc : List (List Eojeol)) (b : Nat)
    (hWF : latticeWF offset acc) : latticeWF offset (removeSubStep offset acc b) :=
  latticeWF_of_sub offset hWF (removeSubStep_sub offset acc b)
    (removeSubStep_length offset acc b)

/-- The record of a bucket with the greatest end always survives its own bucket's
rewrite: a skip via a `(b, m, t0)` pair needs a two-part record of the same bucket
whose right part reaches strictly beyond the one-part record's end, and a skip via
an `(m, e, t1)` pair needs a record of the same bucket with a strictly greater end. -/
theorem keep_max (offset : Nat) (acc : List (List Eojeol)) (b : Nat)
    (hWF : latticeWF offset acc) (rmax : Eojeol) (hmem : rmax ∈ acc.getD b [])
    (hmax : ∀ s ∈ acc.getD b [], s.e ≤ rmax.e) :
    keepPred offset acc (acc.getD b []) rmax = true := by
  unfold keepPred
  rw [Bool.not_eq_true']
  unfold skip
  rw [Bool.or_eq_false_iff]
  constructor
  · rw [List.any_eq_false]
    intro p hp
    simp only [List.mem_map] at hp
    obtain ⟨v, hv, rfl⟩ := hp
    have hv' := List.mem_filter.mp hv
    have hvc : v.w1 ≠ [] ∧ exist_overlap_l offset v.m v.e acc = false := by
      have := hv'.2
      simp only [Bool.and_eq_true, decide_eq_true_eq, Bool.not_eq_true'] at this
      exact this
    obtain ⟨-, -, -, -, -, hvme⟩ := hWF b v hv'.1
    obtain ⟨-, -, -, -, hr1, -⟩ := hWF b rmax hmem
    have hve := hmax v hv'.1
    simp only [Bool.and_eq_true, decide_eq_true_eq, Bool.not_eq_true]
    intro hcontra
    obtain ⟨⟨⟨hw1, -⟩, hm⟩, -⟩ := hcontra
    have := hr1 hw1
    have := hvme hvc.1
    omega
  · rw [List.any_eq_false]
    intro p hp
    simp only [List.mem_map] at hp
    obtain ⟨v, hv, rfl⟩ := hp
    have hv' := List.mem_filter.mp hv
    have hve := hmax v hv'.1
    simp only [Bool.and_eq_true, decide_eq_true_eq, Bool.not_eq_true]
    intro hcontra
    obtain ⟨⟨⟨-, -⟩, he⟩, -⟩ := hcontra
    omega

/-- A bucket-rewriting step preserves the emptiness pattern of a well-formed lattice. -/
theorem removeSubStep_sameEmpty (offset : Nat) (acc : List (List Eojeol)) (b : Nat)
    (hWF : latticeWF offset acc) : sameEmpty (removeSubStep offset acc b) acc := by
  intro j
  rcases eq_or_ne j b with rfl | hne
  · rw [removeSubStep_getD_self]
    constructor
    · intro hfil
      by_contra hne0
      obtain ⟨rmax, hrmem, hrmax⟩ := exists_max_e _ hne0
      have hkeep := keep_max offset acc j hWF rmax hrmem hrmax
      have : rmax ∈ (acc.getD j []).filter (keepPred offset acc (acc.getD j [])) :=
        List.mem_filter.mpr ⟨hrmem, hkeep⟩
      rw [hfil] at this
      exact List.not_mem_nil _ this
    · intro h0
      rw [h0]
      rfl
  · rw [removeSubStep_getD_ne offset acc b j hne]

theorem sameEmpty_refl (A : List (List Eojeol)) : sameEmpty A A := fun _ => Iff.rfl

theorem sameEmpty_trans {A B C : List (List Eojeol)} (h1 : sameEmpty A B) (h2 : sameEmpty B C) :
    sameEmpty A C := fun j => (h1 j).trans (h2 j)

/-- The contributing records of a fixed bucket content are the same over two
well-formed lattices with the same emptiness pattern. -/
theorem contribOf_congr (offset : Nat) {A B : List (List Eojeol)} (hA : latticeWF offset A)
    (hB : latticeWF offset B) (hse : sameEmpty A B) (l : List Eojeol)
    (hl : ∀ r ∈ l, offset ≤ r.m) : contribOf offset A l = contribOf offset B l := by
  unfold contribOf
  apply List.filter_congr
  intro r hr
  rw [exist_overlap_l_congr offset r.m r.e hA hB hse (hl r hr)]

theorem keepPred_congr (offset : Nat) {A B : List (List Eojeol)} (hA : latticeWF offset A)
    (hB : latticeWF offset B) (hse : sameEmpty A B) (l : List Eojeol)
    (hl : ∀ r ∈ l, offset ≤ r.m) (r : Eojeol) :
    keepPred offset A l r = keepPred offset B l r := by
  unfold keepPred
  rw [contribOf_congr offset hA hB hse l hl]

/-- Any record of a bucket of a well-formed lattice has its split at or after the base. -/
theorem mid_ge_offset (offset : Nat) {acc : List (List Eojeol)} (hWF : latticeWF offset acc)
    (b : Nat) : ∀ r ∈ acc.getD b [], offset ≤ r.m := by
  intro r hr
  obtain ⟨h1, h2, -⟩ := hWF b r hr
  omega

/-- Folding the bucket-rewriting step over distinct bucket indices: each listed bucket
ends up as its original content filtered by the survival predicate taken with respect
to the original lattice `L0`, every other bucket is untouched, and length,
well-formedness and the emptiness pattern are preserved. -/
theorem fold_char (offset : Nat) (L0 : List (List Eojeol)) (hWF0 : latticeWF offset L0) :
    ∀ (is : List Nat) (acc : List (List Eojeol)), is.Nodup →
      acc.length = L0.length → latticeWF offset acc → sameEmpty acc L0 →
      (∀ j ∈ is, acc.getD j [] = L0.getD j []) →
      (is.foldl (removeSubStep offset) acc).length = acc.length ∧
      latticeWF offset (is.foldl (removeSubStep offset) acc) ∧
      sameEmpty (is.foldl (removeSubStep offset) acc) L0 ∧
      (∀ j ∈ is, (is.foldl (removeSubStep offset) acc).getD j [] =
        (L0.getD j []).filter (keepPred offset L0 (L0.getD j []))) ∧
      (∀ j, j ∉ is → (is.foldl (removeSubStep offset) acc).getD j [] = acc.getD j []) := by
  intro is
  induction is with
  | nil =>
    intro acc _ _ _ _ _
    exact ⟨rfl, by assumption, by assumption, by simp, fun j _ => rfl⟩
  | cons b rest ih =>
    intro acc hnd hlen hWF hse heq
    have hbrest : b ∉ rest := (List.nodup_cons.mp hnd).1
    have hndrest : rest.Nodup := (List.nodup_cons.mp hnd).2
    set acc1 := removeSubStep offset acc b with hacc1
    have hlen1 : acc1.length = L0.length := by
      rw [hacc1, removeSubStep_length]
      exact hlen
    have hWF1 : latticeWF offset acc1 := removeSubStep_WF offset acc b hWF
    have hse1 : sameEmpty acc1 L0 :=
      sameEmpty_trans (removeSubStep_sameEmpty offset acc b hWF) hse
    have heq1 : ∀ j ∈ rest, acc1.getD j [] = L0.getD j [] := by
      intro j hj
      have hne : j ≠ b := fun hjb => hbrest (hjb ▸ hj)
      rw [hacc1, removeSubStep_getD_ne offset acc b j hne]
      exact heq j (List.mem_cons_of_mem b hj)
    have hchar1 : acc1.getD b [] =
        (L0.getD b []).filter (keepPred offset L0 (L0.getD b [])) := by
      rw [hacc1, removeSubStep_getD_self, heq b (List.mem_cons_self b rest)]
      apply List.filter_congr
      intro r hr
      exact keepPred_congr offset hWF hWF0 hse (L0.getD b [])
        (mid_ge_offset offset hWF0 b) r
    obtain ⟨hRlen, hRWF, hRse, hRchar, hRout⟩ :=
      ih acc1 hndrest hlen1 hWF1 hse1 heq1
    rw [List.foldl_cons]
    refine ⟨hRlen.trans (hlen1.trans hlen.symm), hRWF, hRse, ?_, ?_⟩
    · intro j hj
      rcases List.mem_cons.mp hj with rfl | hj
      · rw [hRout j hbrest, hchar1]
      · exact hRchar j hj
    · intro j hj
      have hjrest : j ∉ rest := fun h => hj (List.mem_cons_of_mem b h)
      have hjb : j ≠ b := fun h => hj (h ▸ List.mem_cons_self b rest)
      rw [hRout j hjrest, hacc1, removeSubStep_getD_ne offset acc b j hjb]

/-- Every bucket of `remove_sub bindex` is the original bucket filtered by the survival
predicate computed against the original lattice (for a well-formed lattice the
in-place rewriting is transparent, because the overlap scan only tests the emptiness
pattern, which the pass preserves). -/
theorem remove_sub_getD (offset : Nat) (L0 : List (List Eojeol)) (hWF0 : latticeWF offset L0)
    (j : Nat) : (remove_sub offset L0).getD j [] =
      (L0.getD j []).filter (keepPred offset L0 (L0.getD j [])) := by
  obtain ⟨-, -, -, hchar, hout⟩ :=
    fold_char offset L0 hWF0 (List.range L0.length) L0 (List.nodup_range L0.length) rfl hWF0
      (sameEmpty_refl L0) (fun _ _ => rfl)
  rcases lt_or_le j L0.length with hj | hj
  · exact hchar j (List.mem_range.mpr hj)
  · have h0 : L0.getD j [] = [] := getD_of_length_le L0 j [] hj
    have hout' := hout j (fun hmem => absurd (List.mem_range.mp hmem) (not_lt.mpr hj))
    unfold remove_sub
    rw [hout', h0]
    simp

theorem remove_sub_length (offset : Nat) (L0 : List (List Eojeol)) :
    (remove_sub offset L0).length = L0.length := by
  unfold remove_sub
  refine foldl_inv (P := fun acc => acc.length = L0.length) _ L0 ?_ rfl
  intro a x _ h
  rw [removeSubStep_length]
  exact h

theorem remove_sub_WF (offset : Nat) (L0 : List (List Eojeol)) (hWF0 : latticeWF offset L0) :
    latticeWF offset (remove_sub offset L0) := by
  unfold remove_sub
  refine foldl_inv (P := latticeWF offset) _ L0 ?_ hWF0
  intro a x _ h
  exact removeSubStep_WF offset a x h

theorem remove_sub_sameEmpty (offset : Nat) (L0 : List (List Eojeol))
    (hWF0 : latticeWF offset L0) : sameEmpty (remove_sub offset L0) L0 := by
  obtain ⟨-, -, hse, -⟩ :=
    fold_char offset L0 hWF0 (List.range L0.length) L0 (List.nodup_range L0.length) rfl hWF0
      (sameEmpty_refl L0) (fun _ _ => rfl)
  exact hse

/-- `skip` is monotone in its pair lists. -/
theorem skip_mono (r : Eojeol) {bm1 bm2 : List (Nat × Nat × String)}
    {me1 me2 : List (Nat × Nat × Option String)} (hbm : ∀ p ∈ bm2, p ∈ bm1)
    (hme : ∀ p ∈ me2, p ∈ me1) (h : skip r bm1 me1 = false) : skip r bm2 me2 = false := by
  unfold skip at h ⊢
  rw [Bool.or_eq_false_iff] at h ⊢
  obtain ⟨ha, hb⟩ := h
  constructor
  · rw [List.any_eq_false] at ha ⊢
    intro p hp
    exact ha p (hbm p hp)
  · rw [List.any_eq_false] at hb ⊢
    intro p hp
    exact hb p (hme p hp)

theorem foldl_fixed {α β : Type} (f : β → α → β) (acc : β) (h : ∀ x, f acc x = acc) :
    ∀ is : List α, is.foldl f acc = acc := by
  intro is
  induction is with
  | nil => rfl
  | cons x t ih => rw [List.foldl_cons, h x, ih]

/-- Idempotence of the Overlap Remover on well-formed lattices: on the pruned lattice
every bucket's surviving records are again kept, because pruning preserves the
emptiness pattern (hence the non-overlap verdicts) and only shrinks the pair sets. -/
theorem remove_sub_idem (offset : Nat) (L0 : List (List Eojeol)) (hWF0 : latticeWF offset L0) :
    remove_sub offset (remove_sub offset L0) = remove_sub offset L0 := by
  set R := remove_sub offset L0 with hR
  have hRWF : latticeWF offset R := remove_sub_WF offset L0 hWF0
  have hRse : sameEmpty R L0 := remove_sub_sameEmpty offset L0 hWF0
  have hchar : ∀ j, R.getD j [] = (L0.getD j []).filter (keepPred offset L0 (L0.getD j [])) :=
    remove_sub_getD offset L0 hWF0
  have hstep : ∀ b, removeSubStep offset R b = R := by
    intro b
    rw [removeSubStep_eq]
    have hall : ∀ r ∈ R.getD b [], keepPred offset R (R.getD b []) r = true := by
      intro r hr
      rw [keepPred_congr offset hRWF hWF0 hRse (R.getD b []) (mid_ge_offset offset hRWF b) r]
      have hr' := hr
      rw [hchar b] at hr'
      obtain ⟨hrmem, hkeep⟩ := List.mem_filter.mp hr'
      unfold keepPred at hkeep ⊢
      rw [Bool.not_eq_true'] at hkeep ⊢
      refine skip_mono r ?_ ?_ hkeep
      · intro p hp
        simp only [List.mem_map] at hp ⊢
        obtain ⟨v, hv, rfl⟩ := hp
        refine ⟨v, ?_, rfl⟩
        unfold contribOf at hv ⊢
        obtain ⟨hvmem, hvp⟩ := List.mem_filter.mp hv
        have hvL0 : v ∈ L0.getD b [] := by
          rw [hchar b] at hvmem
          exact List.mem_of_mem_filter hvmem
        exact List.mem_filter.mpr ⟨hvL0, hvp⟩
      · intro p hp
        simp only [List.mem_map] at hp ⊢
        obtain ⟨v, hv, rfl⟩ := hp
        refine ⟨v, ?_, rfl⟩
        unfold contribOf at hv ⊢
        obtain ⟨hvmem, hvp⟩ := List.mem_filter.mp hv
        have hvL0 : v ∈ L0.getD b [] := by
          rw [hchar b] at hvmem
          exact List.mem_of_mem_filter hvmem
        exact List.mem_filter.mpr ⟨hvL0, hvp⟩
    rw [List.filter_eq_self.mpr hall]
    exact set_getD_self R b []
  show remove_sub offset R = R
  unfold remove_sub
  exact foldl_fixed (removeSubStep offset) R hstep (List.range R.length)

/-- Shape facts about the raw tagged spans: an entry of bucket `j` begins at `j`,
spans a nonempty range ending within the token, and carries a nonempty substring. -/
theorem templateRaw_entries (eojeol : Word) (dic : Dic) (max_len : Nat) (j : Nat) :
    ∀ q ∈ (templateRaw eojeol dic max_len).getD j [],
      q.2.2.1 = j ∧ q.2.2.1 < q.2.2.2 ∧ q.2.2.2 ≤ eojeol.length ∧ q.1 ≠ [] := by
  intro q hq
  rcases lt_or_le j eojeol.length with hj | hj
  · have hjlen : j < (templateRaw eojeol dic max_len).length := by
      unfold templateRaw
      simpa using hj
    rw [List.getD_eq_getElem _ _ hjlen] at hq
    unfold templateRaw at hq
    rw [List.getElem_map] at hq
    simp only [List.getElem_range] at hq
    rw [List.mem_flatMap] at hq
    obtain ⟨e, he, hq⟩ := hq
    rw [List.mem_range'_1] at he
    rw [List.mem_map] at hq
    obtain ⟨tag, -, rfl⟩ := hq
    have he2 : e ≤ eojeol.length := by omega
    have hje : j < e := by omega
    refine ⟨rfl, hje, he2, ?_⟩
    rw [← List.length_pos]
    rw [List.length_take, List.length_drop]
    omega
  · have : (templateRaw eojeol dic max_len).length ≤ j := by
      unfold templateRaw
      simpa using hj
    rw [getD_of_length_le _ _ _ this] at hq
    exact absurd hq (List.not_mem_nil q)

theorem latticeWF_of_wfAt (offset n : Nat) (L : List (List Eojeol)) (hlen : L.length = n)
    (h : ∀ j, ∀ r ∈ L.getD j [], wfAt offset n j r) : latticeWF offset L := by
  intro j r hr
  have := h j r hr
  unfold wfAt at this
  rw [hlen]
  exact this

/-- The records produced for a shape-correct raw span are well-formed for the bucket
of the span's begin. -/
theorem templateRecords_good (eojeol : Word) (dic : Dic) (max_len n offset : Nat)
    (hn : n = eojeol.length) (entry : Word × String × Nat × Nat)
    (hb : entry.2.2.1 < entry.2.2.2) (he : entry.2.2.2 ≤ n) (t : List String) :
    ∀ r ∈ templateRecords (templateRaw eojeol dic max_len) n offset entry t,
      wfAt offset n entry.2.2.1 r := by
  intro r hr
  match t with
  | [] => exact absurd hr (List.not_mem_nil r)
  | [ta] =>
    simp only [templateRecords] at hr
    by_cases hta : entry.2.1 = ta
    · rw [if_pos hta] at hr
      rcases List.mem_singleton.mp hr with rfl
      exact ⟨rfl, by dsimp only; omega, by dsimp only; omega, by simp, fun _ => rfl,
        fun h => absurd rfl h⟩
    · rw [if_neg hta] at hr
      exact absurd hr (List.not_mem_nil r)
  | [ta, tb] =>
    simp only [templateRecords] at hr
    by_cases hcond : entry.2.2.2 < n ∧ entry.2.1 = ta
    · rw [if_pos hcond] at hr
      rw [List.mem_filterMap] at hr
      obtain ⟨q, hq, hqr⟩ := hr
      obtain ⟨hq1, hq2, hq3, hq4⟩ := templateRaw_entries eojeol dic max_len entry.2.2.2 q hq
      by_cases htb : q.2.1 = tb
      · rw [if_pos htb] at hqr
        rcases Option.some.inj hqr with rfl
        refine ⟨rfl, by dsimp only; omega, by dsimp only; rw [hn]; omega,
          by simp [hq4], fun hfalse => absurd hfalse hq4, fun _ => by dsimp only; omega⟩
      · rw [if_neg htb] at hqr
        exact Option.noConfusion hqr
    · rw [if_neg hcond] at hr
      exact absurd hr (List.not_mem_nil r)
  | ta :: tb :: tc :: rest =>
    simp only [templateRecords] at hr
    exact absurd hr (List.not_mem_nil r)

theorem templateRaw_mem_entries (eojeol : Word) (dic : Dic) (max_len : Nat) :
    ∀ morphs ∈ templateRaw eojeol dic max_len, ∀ q ∈ morphs,
      q.2.2.1 < q.2.2.2 ∧ q.2.2.2 ≤ eojeol.length ∧ q.1 ≠ [] := by
  intro morphs hm q hq
  obtain ⟨i, hi, heq⟩ := List.mem_iff_getElem.mp hm
  have hmem : q ∈ (templateRaw eojeol dic max_len).getD i [] := by
    rw [List.getD_eq_getElem _ _ hi, heq]
    exact hq
  obtain ⟨-, h2, h3, h4⟩ := templateRaw_entries eojeol dic max_len i q hmem
  exact ⟨h2, h3, h4⟩

theorem templateStep2_length (eojeol : Word) (dic : Dic) (templates : List (List String))
    (max_len offset : Nat) :
    (templateStep2 eojeol dic templates max_len offset).length = eojeol.length := by
  simp only [templateStep2]
  refine foldl_inv (P := fun acc : List (List Eojeol) => acc.length = eojeol.length) _ _ ?_
    (by simp)
  intro a morphs _ h1
  refine foldl_inv (P := fun acc : List (List Eojeol) => acc.length = eojeol.length) _ _ ?_ h1
  intro a2 _ _ h2
  refine foldl_inv (P := fun acc : List (List Eojeol) => acc.length = eojeol.length) _ _ ?_ h2
  intro a3 t _ h3
  rw [List.length_set]
  exact h3

/-- The combined (pre-pruning) template lattice is well-formed. -/
theorem templateStep2_WF (eojeol : Word) (dic : Dic) (templates : List (List String))
    (max_len offset : Nat) :
    latticeWF offset (templateStep2 eojeol dic templates max_len offset) := by
  apply latticeWF_of_wfAt offset eojeol.length _
    (templateStep2_length eojeol dic templates max_len offset)
  simp only [templateStep2]
  refine foldl_inv
    (P := fun acc : List (List Eojeol) => ∀ j, ∀ r ∈ acc.getD j [], wfAt offset eojeol.length j r)
    _ _ ?_ ?_
  · intro a morphs hm hP
    refine foldl_inv
      (P := fun acc : List (List Eojeol) => ∀ j, ∀ r ∈ acc.getD j [], wfAt offset eojeol.length j r)
      _ _ ?_ hP
    intro a2 entry hent hP2
    have hfacts := templateRaw_mem_entries eojeol dic max_len morphs hm entry hent
    refine foldl_inv
      (P := fun acc : List (List Eojeol) => ∀ j, ∀ r ∈ acc.getD j [], wfAt offset eojeol.length j r)
      _ _ ?_ hP2
    intro a3 t _ hP3
    intro j r hr
    rcases lt_or_le entry.2.2.1 a3.length with hblt | hbge
    · rcases eq_or_ne j entry.2.2.1 with rfl | hne
      · rw [getD_set_self_of_lt _ _ _ _ hblt] at hr
        rcases List.mem_append.mp hr with hold | hnew
        · exact hP3 _ r hold
        · exact templateRecords_good eojeol dic max_len eojeol.length offset rfl entry
            hfacts.1 hfacts.2.1 t r hnew
      · rw [getD_set_of_ne _ _ _ _ _ (fun h => hne h.symm)] at hr
        exact hP3 j r hr
    · rw [List.set_eq_of_length_le hbge] at hr
      exact hP3 j r hr
  · intro j r hr
    have hrep : (List.replicate eojeol.length ([] : List Eojeol)).getD j [] = [] := by
      rw [List.getD_eq_getElem?_getD, List.getElem?_replicate]
      split <;> rfl
    rw [hrep] at hr
    exact absurd hr (List.not_mem_nil r)

/-- C3: for every token, dictionary, template set, maximum word length and offset, the
Overlap Remover is idempotent on the combined lattice built by the Template Lookup
Strategy: pruning the already-pruned lattice (the step-3 result, before the pending
predicators are inserted) removes nothing further. -/
theorem C3_remove_sub_idempotent_on_template_lattice (eojeol : Word) (dic : Dic)
    (templates : List (List String)) (max_len offset : Nat) :
    remove_sub offset
        (remove_sub offset (templateStep2 eojeol dic templates max_len offset)) =
      remove_sub offset (templateStep2 eojeol dic templates max_len offset) :=
  remove_sub_idem offset _ (templateStep2_WF eojeol dic templates max_len offset)

/-- C1 counterexample: in the concrete lattice `bindexC1`, bucket 1 holds a two-part
record with split `m = 2` and end `e = 3`; the code classifies its right-hand sub-span
`[2, 3)` as non-overlapped (`exist_overlap_l` is `false`), yet the record of bucket 0
(whose begin `0` is strictly less than `m`) has begin `< e` and mid `3 > m`, so the
spec's "no other record anywhere in the lattice" condition is violated: the claimed
equivalence fails because buckets with begin below `m` are never scanned. -/
theorem C1_counterexample_overlap_scan :
    (⟨['나'], ['다'], "Noun", some "Josa", 1, 2, 3⟩ : Eojeol) ∈ bindexC1.getD 1 [] ∧
      exist_overlap_l 0 2 3 bindexC1 = false ∧ ¬ claimNonOverlapped bindexC1 2 3 := by
  refine ⟨by decide, by decide, by decide⟩

/-- C1 (amended): for a well-formed lattice based at `offset` and a sub-span `[m, e)`
with `offset ≤ m`, the code classifies `[m, e)` as non-overlapped if and only if no
record whose begin lies in `[m, e)` — rather than anywhere in the lattice — has a
begin strictly less than `e` and a mid strictly greater than `m`. -/
theorem C1_nonoverlap_scan_amended (offset m e : Nat) (bindex : List (List Eojeol))
    (hWF : latticeWF offset bindex) (hm : offset ≤ m) :
    exist_overlap_l offset m e bindex = false ↔ codeNonOverlapped bindex m e := by
  rw [← Bool.not_eq_true]
  rw [exist_overlap_l_iff offset m e bindex hWF hm]
  constructor
  · intro h bucket hbucket r hr hcontra
    apply h
    obtain ⟨i, hi, hieq⟩ := List.mem_iff_getElem.mp hbucket
    have hrmem : r ∈ bindex.getD i [] := by
      rw [List.getD_eq_getElem _ _ hi, hieq]
      exact hr
    obtain ⟨hrb, -⟩ := hWF i r hrmem
    refine ⟨r.b, hcontra.1, hcontra.2.1, ?_⟩
    have hsub : r.b - offset = i := by omega
    rw [hsub]
    intro hnil
    rw [hnil] at hrmem
    exact absurd hrmem (List.not_mem_nil r)
  · intro h hcontra
    obtain ⟨i, him, hie, hne⟩ := hcontra
    obtain ⟨r, hr⟩ := List.exists_mem_of_ne_nil _ hne
    obtain ⟨hrb, hrm, -⟩ := hWF (i - offset) r hr
    have hlt : i - offset < bindex.length := by
      by_contra hge
      exact hne (getD_of_length_le _ _ _ (not_lt.mp hge))
    have hbmem : bindex.getD (i - offset) [] ∈ bindex := by
      rw [List.getD_eq_getElem _ _ hlt]
      exact List.getElem_mem hlt
    exact h _ hbmem r hr ⟨by omega, by omega, by omega⟩

/-- Witness for the amended C1 statement: the concrete lattice `bindexC1` is
well-formed at base 0, and on it the equivalence holds at the split `m = 2`,
end `e = 3` of its two-part record. -/
theorem C1_nonoverlap_scan_amended_witness :
    latticeWF 0 bindexC1 ∧ (exist_overlap_l 0 2 3 bindexC1 = false ↔
      codeNonOverlapped bindexC1 2 3) := by
  have hWF : latticeWF 0 bindexC1 := by
    apply latticeWF_of_forall_lt
    decide
  exact ⟨hWF, C1_nonoverlap_scan_amended 0 2 3 bindexC1 hWF (Nat.zero_le 2)⟩

theorem lemmatize_good {lemmatizer : Lemmatizer} (hL : LemOk lemmatizer) (w : Word)
    (offset : Nat) : ∀ r ∈ lemmatize w lemmatizer offset, goodRecord r := by
  intro r hr
  unfold lemmatize at hr
  by_cases hh : is_hangle w = true
  · rw [if_pos hh] at hr
    rw [List.mem_map] at hr
    obtain ⟨a, ha, rfl⟩ := hr
    obtain ⟨h1, h2, h3⟩ := hL w a ha
    refine ⟨by dsimp only; omega, by dsimp only; omega, by simpa using h2, ?_⟩
    dsimp only
    rw [h3]
    omega
  · rw [if_neg hh] at hr
    exact absurd hr (List.not_mem_nil r)

/-- Appending only invariant-satisfying records to a bucket preserves `allGood`. -/
theorem allGood_set_append (acc : List (List Eojeol)) (hP : allGood acc) (k : Nat)
    (new : List Eojeol) (hnew : ∀ r ∈ new, goodRecord r) :
    allGood (acc.set k (acc.getD k [] ++ new)) := by
  intro j r hr
  rcases lt_or_le k acc.length with hk | hk
  · rcases eq_or_ne j k with rfl | hne
    · rw [getD_set_self_of_lt _ _ _ _ hk] at hr
      rcases List.mem_append.mp hr with hold | hmem
      · exact hP _ r hold
      · exact hnew r hmem
    · rw [getD_set_of_ne _ _ _ _ _ (fun h => hne h.symm)] at hr
      exact hP j r hr
  · rw [List.set_eq_of_length_le hk] at hr
    exact hP j r hr

/-- A nonempty suffix means the split index is interior. -/
theorem drop_ne_nil_imp_lt (w : Word) (i : Nat) (h : w.drop i ≠ []) : i < w.length := by
  by_contra hge
  exact h (List.drop_eq_nil_of_le (not_lt.mp hge))

/-- One `lr_lookup` loop iteration preserves the Segment Record invariant. -/
theorem lrStep_allGood {lemmatizer : Lemmatizer} {dic : Dic} (hL : LemOk lemmatizer)
    (hd : DicOk dic) (offset : Nat) (eojeol : Word) (i : Nat) (hi : 1 ≤ i)
    (acc : List (List Eojeol)) (hP : allGood acc) :
    allGood (lrStep lemmatizer dic offset eojeol.length eojeol acc i) := by
  have hjosa : check_tag (eojeol.drop i) "Josa" dic = true → eojeol.drop i ≠ [] := by
    intro hct
    unfold check_tag at hct
    rcases hfind : dic.find? (fun p => decide (p.1 = "Josa")) with _ | p
    · rw [hfind] at hct
      exact absurd hct (by simp)
    · rw [hfind] at hct
      rw [decide_eq_true_eq] at hct
      exact hd p (List.mem_of_find?_eq_some hfind) _ hct
  simp only [lrStep]
  have hP1 : allGood (if check_tag (eojeol.take i) "Noun" dic &&
      check_tag (eojeol.drop i) "Josa" dic then
      acc.set 0 (acc.getD 0 [] ++ [⟨eojeol.take i, eojeol.drop i, "Noun", some "Josa",
        offset, offset + i, offset + eojeol.length⟩]) else acc) := by
    split
    · next hcond =>
      rw [Bool.and_eq_true] at hcond
      have hne := hjosa hcond.2
      have hlt := drop_ne_nil_imp_lt eojeol i hne
      apply allGood_set_append acc hP
      intro r hr
      rcases List.mem_singleton.mp hr with rfl
      refine ⟨by dsimp only; omega, by dsimp only; omega, ?_, ?_⟩
      · simp [hne]
      · constructor
        · intro hfalse
          exact absurd hfalse hne
        · intro heq
          dsimp only at heq
          omega
    · exact hP
  split
  · apply allGood_set_append _ ?_ i _
      (lemmatize_good hL (eojeol.drop i) (offset + i))
    split
    · apply allGood_set_append _ hP1 0
      intro r hr
      rcases List.mem_singleton.mp hr with rfl
      exact ⟨by dsimp only; omega, by dsimp only; omega, by simp, by simp⟩
    · exact allGood_set_append _ hP1 0 _ (lemmatize_good hL (eojeol.take i) offset)
  · exact hP1

/-- Every record produced by `lr_lookup` satisfies the Segment Record invariant,
for any lemmatizer and dictionary satisfying `LemOk` and `DicOk`. -/
theorem lr_lookup_allGood {lemmatizer : Lemmatizer} {dic : Dic} (hL : LemOk lemmatizer)
    (hd : DicOk dic) (eojeol : Word) (offset : Nat) :
    allGood (lr_lookup eojeol lemmatizer dic offset) := by
  simp only [lr_lookup]
  refine foldl_inv (P := allGood) _ _ ?_ ?_
  · intro a i hi hP
    rw [List.mem_range'_1] at hi
    exact lrStep_allGood hL hd offset eojeol i hi.1 a hP
  · intro j r hr
    rcases Nat.eq_zero_or_pos eojeol.length with hn | hn
    · rw [hn] at hr
      simp at hr
    · rcases eq_or_ne j 0 with rfl | hj0
      · rw [getD_set_self_of_lt _ _ _ _ (by simpa using hn)] at hr
        exact lemmatize_good hL eojeol offset r hr
      · rw [getD_set_of_ne _ _ _ _ _ (fun h => hj0 h.symm)] at hr
        have : (List.replicate eojeol.length ([] : List Eojeol)).getD j [] = [] := by
          rw [List.getD_eq_getElem?_getD, List.getElem?_replicate]
          split <;> rfl
        rw [this] at hr
        exact absurd hr (List.not_mem_nil r)

/-- Well-formedness of a bucket record implies the Segment Record invariant. -/
theorem wfAt_goodRecord (offset n j : Nat) (r : Eojeol) (h : wfAt offset n j r) :
    goodRecord r := by
  obtain ⟨h1, h2, h3, h4, h5, h6⟩ := h
  refine ⟨by omega, ?_, h4, ?_⟩
  · by_cases hw : r.w1 = []
    · rw [h5 hw]
    · exact le_of_lt (h6 hw)
  · constructor
    · exact h5
    · intro hme
      by_contra hw
      have := h6 hw
      omega

/-- The pending predicators collected by the Template Lookup Strategy all satisfy the
Segment Record invariant. -/
theorem templatePredicators_good {lemmatizer : Lemmatizer} (hL : LemOk lemmatizer)
    (eojeol : Word) (max_len offset : Nat) :
    ∀ r ∈ templatePredicators eojeol lemmatizer max_len offset, goodRecord r := by
  simp only [templatePredicators]
  refine foldl_inv (P := fun acc : List Eojeol => ∀ r ∈ acc, goodRecord r) _ _ ?_ ?_
  · intro a b _ hPa
    refine foldl_inv (P := fun acc : List Eojeol => ∀ r ∈ acc, goodRecord r) _ _ ?_ hPa
    intro a2 e _ hPa2
    refine foldl_inv (P := fun acc : List Eojeol => ∀ r ∈ acc, goodRecord r) _ _ ?_ hPa2
    intro a3 x hx hPa3
    intro r hr
    unfold insertNew at hr
    split at hr
    · exact hPa3 r hr
    · rcases List.mem_append.mp hr with hold | hmem
      · exact hPa3 r hold
      · rcases List.mem_singleton.mp hmem with rfl
        exact lemmatize_good hL _ _ r hx
  · intro r hr
    exact absurd hr (List.not_mem_nil r)

/-- Every record produced by `template_lookup` satisfies the Segment Record invariant,
for any lemmatizer satisfying `LemOk`. -/
theorem template_lookup_allGood {lemmatizer : Lemmatizer} (hL : LemOk lemmatizer)
    (eojeol : Word) (dic : Dic) (templates : List (List String)) (max_len offset : Nat) :
    allGood (template_lookup eojeol lemmatizer dic templates max_len offset) := by
  have hWF2 := templateStep2_WF eojeol dic templates max_len offset
  have hlen2 := templateStep2_length eojeol dic templates max_len offset
  have hbase : allGood (remove_sub offset (templateStep2 eojeol dic templates max_len offset)) := by
    intro j r hr
    rw [remove_sub_getD offset _ hWF2 j] at hr
    have hmem := List.mem_of_mem_filter hr
    exact wfAt_goodRecord offset eojeol.length j r (by
      have := hWF2 j r hmem
      unfold wfAt
      rw [← hlen2]
      exact this)
  simp only [template_lookup]
  refine foldl_inv (P := allGood) _ _ ?_ hbase
  intro a w hw hPa
  exact allGood_set_append a hPa _ [w] (by
    intro r hr
    rcases List.mem_singleton.mp hr with rfl
    exact templatePredicators_good hL eojeol max_len offset r hw)

/-- C2 counterexample: the claim quantifies over every sequence of analyses returned
by the (external) lemmatizer, but for an analysis whose stem is longer than the
analysed substring the `lemmatize` wrapper produces a record with `mid > end`:
`lemmatize("가")` with the analysis `(stem="가가", ending="", ...)` yields the record
`(b, m, e) = (0, 2, 1)`, violating `begin ≤ mid ≤ end`. -/
theorem C2_counterexample_record_invariants :
    ¬ (∀ r ∈ lemmatize ['가'] lemBad 0, goodRecord r) := by
  decide

/-- C2 (amended): provided every dictionary word is nonempty and the lemmatizer's
analyses are consistent with the analysed surface form (stem no longer than the
substring; ending empty iff second tag absent iff the stem covers the substring),
every Segment Record produced by the `lemmatize` wrapper, by `lr_lookup` and by
`template_lookup` satisfies `begin ≤ mid ≤ end` with `right_text` empty iff
`right_tag` absent iff `mid = end`. -/
theorem C2_record_invariants_amended (lemmatizer : Lemmatizer) (dic : Dic)
    (hL : LemOk lemmatizer) (hd : DicOk dic) :
    (∀ w offset, ∀ r ∈ lemmatize w lemmatizer offset, goodRecord r) ∧
    (∀ eojeol offset, ∀ bucket ∈ lr_lookup eojeol lemmatizer dic offset,
      ∀ r ∈ bucket, goodRecord r) ∧
    (∀ eojeol templates max_len offset,
      ∀ bucket ∈ template_lookup eojeol lemmatizer dic templates max_len offset,
      ∀ r ∈ bucket, goodRecord r) := by
  refine ⟨fun w offset => lemmatize_good hL w offset, ?_, ?_⟩
  · intro eojeol offset bucket hbucket r hr
    obtain ⟨j, hj, hjeq⟩ := List.mem_iff_getElem.mp hbucket
    refine lr_lookup_allGood hL hd eojeol offset j r ?_
    rw [List.getD_eq_getElem _ _ hj, hjeq]
    exact hr
  · intro eojeol templates max_len offset bucket hbucket r hr
    obtain ⟨j, hj, hjeq⟩ := List.mem_iff_getElem.mp hbucket
    refine template_lookup_allGood hL eojeol dic templates max_len offset j r ?_
    rw [List.getD_eq_getElem _ _ hj, hjeq]
    exact hr

/-- Witness for the amended C2 statement: the concrete example lemmatizer and
dictionary satisfy the hypotheses, and the invariant holds on the example lookup. -/
theorem C2_record_invariants_amended_witness :
    LemOk lemSaram ∧ DicOk dicSaram ∧
      (∀ bucket ∈ lr_lookup "사람이다".data lemSaram dicSaram 0,
        ∀ r ∈ bucket, goodRecord r) := by
  have hL : LemOk lemSaram := by
    intro w a ha
    unfold lemSaram at ha
    split at ha
    · next hw =>
      rcases List.mem_singleton.mp ha with rfl
      rw [hw]
      refine ⟨by decide, by decide, by decide⟩
    · exact absurd ha (List.not_mem_nil a)
  have hd : DicOk dicSaram := by
    intro p hp w hw
    unfold dicSaram at hp
    rcases List.mem_singleton.mp hp with rfl
    rcases List.mem_singleton.mp hw with rfl
    decide
  exact ⟨hL, hd, (C2_record_invariants_amended lemSaram dicSaram hL hd).2.1 "사람이다".data 0⟩

/-- C5 counterexample: with the Noun dictionary containing `"사람"` and the predicate
data recognizing `"이다"`, `lr_lookup` produces no two-part record whose left text is
`"사람"` and right text `"이다"`: the Noun-plus-predicate branch emits a one-part Noun
record and separate predicate records, never a combined two-part record (only the
Noun+Josa branch builds two-part records, and `"이다"` is not a Josa). -/
theorem C5_counterexample_two_part_record :
    ¬ ∃ bucket ∈ lr_lookup "사람이다".data lemSaram dicSaram 0, ∃ r ∈ bucket,
      r.w0 = "사람".data ∧ r.w1 = "이다".data := by
  decide

/-- C5 (amended): for the token `"사람이다"` with Noun dictionary containing `"사람"`
and predicate data recognizing `"이다"` (stem `"이"` + ending `"다"`), the LR Lookup
Strategy yields a one-part Noun record `(사람, [0,2))` in bucket 0 and a two-part
predicate record `(이/Adjective + 다/Eomi, [2,4))` in bucket 2 — not a single two-part
Noun+predicate record spanning the whole token. -/
theorem C5_lr_lookup_amended :
    lr_lookup "사람이다".data lemSaram dicSaram 0 =
      [[⟨"사람".data, [], "Noun", none, 0, 2, 2⟩], [],
       [⟨"이".data, "다".data, "Adjective", some "Eomi", 2, 3, 4⟩], []] := by
  decide

theorem lrStep_length (lemmatizer : Lemmatizer) (dic : Dic) (offset n : Nat)
    (eojeol : Word) (acc : List (List Eojeol)) (i : Nat) :
    (lrStep lemmatizer dic offset n eojeol acc i).length = acc.length := by
  simp only [lrStep]
  split
  · split <;> split <;> simp [List.length_set]
  · split <;> simp [List.length_set]

/-- `lr_lookup` returns one bucket per character of the token. -/
theorem lr_lookup_length (eojeol : Word) (lemmatizer : Lemmatizer) (dic : Dic)
    (offset : Nat) : (lr_lookup eojeol lemmatizer dic offset).length = eojeol.length := by
  simp only [lr_lookup]
  refine foldl_inv (P := fun acc : List (List Eojeol) => acc.length = eojeol.length) _ _ ?_
    (by simp)
  intro a i _ h
  rw [lrStep_length]
  exact h

theorem sentence_fold_eq (lemmatizer : Lemmatizer) (dic : Dic) :
    ∀ (toks : List Word) (sent : List (List Eojeol)) (cnt : Nat), sent.length = cnt →
      toks.foldl (fun sent tok => sent ++ lr_lookup tok lemmatizer dic sent.length) sent =
      (toks.foldl (fun p tok => (p.1 ++ lr_lookup tok lemmatizer dic p.2, p.2 + tok.length))
        (sent, cnt)).1 := by
  intro toks
  induction toks with
  | nil =>
    intro sent cnt _
    rfl
  | cons tok rest ih =>
    intro sent cnt hlen
    simp only [List.foldl_cons]
    rw [hlen]
    apply ih
    rw [List.length_append, lr_lookup_length]
    omega

/-- C6 counterexample: for the sentence `"가 나"` the token `"나"` sits at character
position 2 of the whitespace-normalized sentence (position 1 is the space), but the
record `sentence_lookup` returns for it has `begin = 1`: offsets count previously
accumulated buckets (characters of previous tokens, spaces excluded), not character
positions in the normalized sentence. -/
theorem C6_counterexample_sentence_offsets :
    LRLookup_sentence_lookup lemNa [] "가 나".data =
        [[], [⟨['나'], [], "Verb", none, 1, 2, 2⟩]] ∧
      remove_doublespace "가 나".data = "가 나".data ∧
      "가 나".data.getD 1 ' ' = ' ' ∧ "가 나".data.getD 2 ' ' = '나' := by
  refine ⟨by decide, by decide, by decide, by decide⟩

/-- C6 (amended): the `begin`/`mid`/`end` offsets of the records returned by
`LRLookup.sentence_lookup` are character-based positions relative to the
concatenation of the normalized sentence's tokens with the spaces removed: looking
each token up at the running bucket count (`len(sent)`) is the same as looking it up
at the cumulative character count of the preceding tokens. -/
theorem C6_sentence_offsets_amended (lemmatizer : Lemmatizer) (dic : Dic)
    (sentence : List Char) :
    LRLookup_sentence_lookup lemmatizer dic sentence =
      sentence_lookup_charoffsets lemmatizer dic sentence := by
  unfold LRLookup_sentence_lookup sentence_lookup_charoffsets
  exact sentence_fold_eq lemmatizer dic _ [] 0 rfl

/-- C7 counterexample: for the dictionary `{"Noun": {}}` (a non-empty mapping whose
only word set is empty) the derived `max_word_len` is 0 — not positive — yet
construction succeeds instead of failing with a configuration error. -/
theorem C7_counterexample_nonpositive_max_len :
    LRLookup_init_max_word_len [("Noun", [])] 0 = Except.ok 0 := rfl

theorem foldl_max_le_init (ws : List Word) :
    ∀ m0 : Nat, m0 ≤ ws.foldl (fun m w => max m w.length) m0 := by
  induction ws with
  | nil => intro m0; exact le_rfl
  | cons w rest ih =>
    intro m0
    exact le_trans (Nat.le_max_left m0 w.length) (ih (max m0 w.length))

theorem foldl_max_ub (ws : List Word) :
    ∀ m0 : Nat, ∀ w ∈ ws, w.length ≤ ws.foldl (fun m w => max m w.length) m0 := by
  induction ws with
  | nil => intro m0 w hw; exact absurd hw (List.not_mem_nil w)
  | cons v rest ih =>
    intro m0 w hw
    rcases List.mem_cons.mp hw with rfl | hw
    · exact le_trans (Nat.le_max_right m0 w.length) (foldl_max_le_init rest _)
    · exact ih _ w hw

theorem foldl_max_attain (ws : List Word) :
    ∀ m0 : Nat, ws.foldl (fun m w => max m w.length) m0 = m0 ∨
      ∃ w ∈ ws, ws.foldl (fun m w => max m w.length) m0 = w.length := by
  induction ws with
  | nil => intro m0; exact Or.inl rfl
  | cons v rest ih =>
    intro m0
    rcases ih (max m0 v.length) with heq | ⟨w, hw, heq⟩
    · rw [List.foldl_cons, heq]
      rcases Nat.le_total v.length m0 with hle | hle
      · exact Or.inl (Nat.max_eq_left hle)
      · exact Or.inr ⟨v, List.mem_cons_self v rest, Nat.max_eq_right hle⟩
    · exact Or.inr ⟨w, List.mem_cons_of_mem v hw, heq⟩

theorem dic_fold_le_init (dic : Dic) :
    ∀ acc : Nat, acc ≤ dic.foldl (fun acc p => if p.2.isEmpty then acc
      else max (p.2.foldl (fun m w => max m w.length) 0) acc) acc := by
  induction dic with
  | nil => intro acc; exact le_rfl
  | cons p rest ih =>
    intro acc
    rw [List.foldl_cons]
    refine le_trans ?_ (ih _)
    split
    · exact le_rfl
    · exact Nat.le_max_right _ acc

theorem dic_fold_ub (dic : Dic) :
    ∀ acc : Nat, ∀ p ∈ dic, ∀ w ∈ p.2, w.length ≤
      dic.foldl (fun acc p => if p.2.isEmpty then acc
        else max (p.2.foldl (fun m w => max m w.length) 0) acc) acc := by
  induction dic with
  | nil =>
    intro acc p hp w hw
    exact absurd hp (List.not_mem_nil p)
  | cons q rest ih =>
    intro acc p hp w hw
    rcases List.mem_cons.mp hp with rfl | hp
    · rw [List.foldl_cons]
      refine le_trans ?_ (dic_fold_le_init rest _)
      have hne : p.2.isEmpty = false := by
        rw [List.isEmpty_eq_false]
        exact List.ne_nil_of_mem hw
      rw [hne]
      simp only [Bool.false_eq_true, if_false]
      exact le_trans (foldl_max_ub p.2 0 w hw) (Nat.le_max_left _ acc)
    · exact ih _ p hp w hw

theorem dic_fold_attain (dic : Dic) :
    ∀ acc : Nat, dic.foldl (fun acc p => if p.2.isEmpty then acc
        else max (p.2.foldl (fun m w => max m w.length) 0) acc) acc = acc ∨
      ∃ p ∈ dic, ∃ w ∈ p.2, dic.foldl (fun acc p => if p.2.isEmpty then acc
        else max (p.2.foldl (fun m w => max m w.length) 0) acc) acc = w.length := by
  induction dic with
  | nil => intro acc; exact Or.inl rfl
  | cons q rest ih =>
    intro acc
    rw [List.foldl_cons]
    rcases ih (if q.2.isEmpty then acc else max (q.2.foldl (fun m w => max m w.length) 0) acc)
      with heq | ⟨p, hp, w, hw, heq⟩
    · rw [heq]
      split
      · exact Or.inl rfl
      · next hne =>
        rcases Nat.le_total (q.2.foldl (fun m w => max m w.length) 0) acc with hle | hle
        · exact Or.inl (Nat.max_eq_right hle)
        · rcases foldl_max_attain q.2 0 with h0 | ⟨w, hw, hweq⟩
          · refine Or.inl ?_
            rw [Nat.max_eq_left hle, h0]
            omega
          · refine Or.inr ⟨q, List.mem_cons_self q rest, w, hw, ?_⟩
            rw [Nat.max_eq_left hle, hweq]
    · exact Or.inr ⟨p, List.mem_cons_of_mem q hp, w, hw, heq⟩

/-- C7 (amended): when `max_word_len` is not supplied (passed as 0), the value is
derived by one scan of all dictionary entries; construction fails with the
configuration error exactly when the tag-to-words mapping itself is empty, and
otherwise succeeds with the maximum word length over all entries — which is 0 (not
positive) for dictionaries whose word sets are all empty or contain only empty
words, with no error raised. -/
theorem C7_max_len_amended (dic : Dic) :
    (dic = [] →
      LRLookup_init_max_word_len dic 0 = Except.error "pos_to_words should not be empty") ∧
    (dic ≠ [] → ∃ v, LRLookup_init_max_word_len dic 0 = Except.ok v ∧
      (∀ p ∈ dic, ∀ w ∈ p.2, w.length ≤ v) ∧
      (v = 0 ∨ ∃ p ∈ dic, ∃ w ∈ p.2, w.length = v)) := by
  constructor
  · rintro rfl
    rfl
  · intro hne
    have hempty : dic.isEmpty = false := by
      rcases dic with _ | _
      · exact absurd rfl hne
      · rfl
    refine ⟨dic.foldl (fun acc p => if p.2.isEmpty then acc
      else max (p.2.foldl (fun m w => max m w.length) 0) acc) 0, ?_, ?_, ?_⟩
    · unfold LRLookup_init_max_word_len check_max_word_len
      rw [if_pos rfl, hempty]
      simp only [Bool.false_eq_true, if_false]
    · exact dic_fold_ub dic 0
    · rcases dic_fold_attain dic 0 with h | ⟨p, hp, w, hw, h⟩
      · exact Or.inl h
      · exact Or.inr ⟨p, hp, w, hw, h.symm⟩

/-- Witness for the amended C7 statement: the empty mapping fails with the
configuration error, while `{"Noun": {"가"}}` succeeds with derived value 1. -/
theorem C7_max_len_amended_witness :
    LRLookup_init_max_word_len [] 0 = Except.error "pos_to_words should not be empty" ∧
    ∃ v, LRLookup_init_max_word_len [("Noun", [['가']])] 0 = Except.ok v ∧
      (∀ p ∈ [(("Noun" : String), [['가']])], ∀ w ∈ p.2, w.length ≤ v) ∧
      (v = 0 ∨ ∃ p ∈ [(("Noun" : String), [['가']])], ∃ w ∈ p.2, w.length = v) :=
  ⟨(C7_max_len_amended []).1 rfl,
   (C7_max_len_amended [("Noun", [['가']])]).2 (by simp)⟩

theorem dictGet_insert_self {β : Type} (d : List (Word × β)) (k : Word) (v : β) :
    dictGet (dictInsert d k v) k = some v := by
  induction d with
  | nil => simp [dictInsert, dictGet]
  | cons p ps ih =>
    by_cases h : p.1 = k
    · simp [dictInsert, dictGet, h]
    · simp only [dictInsert, dictGet, if_neg h]
      exact ih

/-- Every counter entry of a freshly initialized buffer reads as 0. -/
theorem dictGetD_init_counter (pa : List (Word × LookupResult)) (w : Word) :
    dictGetD (pa.map (fun p => (p.1, (0 : Nat)))) w 0 = 0 := by
  induction pa with
  | nil => rfl
  | cons p ps ih =>
    simp only [List.map_cons, dictGetD, dictGet]
    split
    · rfl
    · exact ih

/-- C4 counterexample: after a first (miss) lookup of `"가"` at offset 0, a cache-hit
lookup of the same token at offset 1 returns the stored result — whose offsets were
baked in at 0 — which differs from what the wrapped strategy returns at offset 1:
cached and uncached calls for the same token are not equal for every pair of
offsets. -/
theorem C4_counterexample_cache_offsets :
    (eojeol_lookup lookupShift
        (eojeol_lookup lookupShift (LookupBuffer.init []) ['가'] 0).2 ['가'] 1).1 ≠
      lookupShift ['가'] 1 := by
  decide

/-- C4 (amended): cache transparency holds per offset: for a token with use count 0,
the miss call at offset `o` returns exactly the wrapped strategy's result at `o`, and
a subsequent cache-hit call of the same token at the same offset `o` returns that
same result. -/
theorem C4_cache_transparency_amended (lookup : Word → Nat → LookupResult)
    (st : LookupBuffer) (w : Word) (offset : Nat)
    (h : dictGetD st.counter w 0 = 0) :
    (eojeol_lookup lookup st w offset).1 = lookup w offset ∧
    (eojeol_lookup lookup (eojeol_lookup lookup st w offset).2 w offset).1 =
      lookup w offset := by
  constructor
  · simp only [eojeol_lookup, h, if_pos]
  · simp only [eojeol_lookup, h, if_pos]
    have hc : dictGetD (dictInsert st.counter w (0 + 1)) w 0 = 1 := by
      unfold dictGetD
      rw [dictGet_insert_self]
      rfl
    simp only [hc, one_ne_zero, if_neg, if_false]
    unfold dictGetD
    rw [dictGet_insert_self]
    rfl

/-- Witness for the amended C4 statement: a fresh cache, the offset-sensitive
strategy, token `"가"`, offset 5. -/
theorem C4_cache_transparency_amended_witness :
    dictGetD (LookupBuffer.init []).counter ['가'] 0 = 0 ∧
    ((eojeol_lookup lookupShift (LookupBuffer.init []) ['가'] 5).1 =
        lookupShift ['가'] 5 ∧
      (eojeol_lookup lookupShift
          (eojeol_lookup lookupShift (LookupBuffer.init []) ['가'] 5).2 ['가'] 5).1 =
        lookupShift ['가'] 5) :=
  ⟨rfl, C4_cache_transparency_amended lookupShift (LookupBuffer.init []) ['가'] 5 rfl⟩

/-- C10: with a non-empty preanalyzed mapping, the first lookup of a preanalyzed token
is still a miss — its use counter starts at 0 and a zero count is treated as a miss —
so the wrapped strategy is invoked and its result overwrites the stored preanalyzed
entry, with the counter set to 1. -/
theorem C10_preanalyzed_first_lookup_recomputes (pa : List (Word × LookupResult))
    (lookup : Word → Nat → LookupResult) (w : Word) (offset : Nat)
    (hmem : w ∈ pa.map (fun p => p.1)) :
    (eojeol_lookup lookup (LookupBuffer.init pa) w offset).1 = lookup w offset ∧
    dictGet (eojeol_lookup lookup (LookupBuffer.init pa) w offset).2.buffer w =
      some (lookup w offset) ∧
    dictGet (eojeol_lookup lookup (LookupBuffer.init pa) w offset).2.counter w =
      some 1 := by
  have h0 : dictGetD (LookupBuffer.init pa).counter w 0 = 0 := dictGetD_init_counter pa w
  refine ⟨?_, ?_, ?_⟩
  · simp only [eojeol_lookup, h0, if_pos]
  · simp only [eojeol_lookup, h0, if_pos]
    exact dictGet_insert_self _ w _
  · simp only [eojeol_lookup, h0, if_pos]
    exact dictGet_insert_self _ w _

/-- Witness for C10: a preanalyzed mapping holding a stale record for `"가"`; the
first lookup recomputes and overwrites it. -/
theorem C10_preanalyzed_first_lookup_recomputes_witness :
    (['가'] ∈ ([(['가'], [[⟨['가'], [], "Exclamation", none, 7, 8, 8⟩]])] :
        List (Word × LookupResult)).map (fun p => p.1)) ∧
    ((eojeol_lookup lookupShift
        (LookupBuffer.init [(['가'], [[⟨['가'], [], "Exclamation", none, 7, 8, 8⟩]])])
        ['가'] 0).1 = lookupShift ['가'] 0 ∧
      dictGet (eojeol_lookup lookupShift
        (LookupBuffer.init [(['가'], [[⟨['가'], [], "Exclamation", none, 7, 8, 8⟩]])])
        ['가'] 0).2.buffer ['가'] = some (lookupShift ['가'] 0) ∧
      dictGet (eojeol_lookup lookupShift
        (LookupBuffer.init [(['가'], [[⟨['가'], [], "Exclamation", none, 7, 8, 8⟩]])])
        ['가'] 0).2.counter ['가'] = some 1) :=
  ⟨by decide,
   C10_preanalyzed_first_lookup_recomputes _ lookupShift ['가'] 0 (by decide)⟩

theorem dictGet_isSome_iff {β : Type} (d : List (Word × β)) (w : Word) :
    (dictGet d w).isSome = true ↔ ∃ q ∈ d, q.1 = w := by
  induction d with
  | nil =>
    simp only [dictGet, Option.isSome_none, Bool.false_eq_true, false_iff]
    rintro ⟨q, hq, -⟩
    exact List.not_mem_nil q hq
  | cons p ps ih =>
    simp only [dictGet]
    by_cases h : p.1 = w
    · rw [if_pos h]
      simp only [Option.isSome_some, true_iff]
      exact ⟨p, List.mem_cons_self p ps, h⟩
    · simp only [if_neg h, ih]
      constructor
      · rintro ⟨q, hq, rfl⟩
        exact ⟨q, List.mem_cons_of_mem p hq, rfl⟩
      · rintro ⟨q, hq, rfl⟩
        rcases List.mem_cons.mp hq with rfl | hq
        · exact absurd rfl h
        · exact ⟨q, hq, rfl⟩

theorem dictGet_filter_anykey {β : Type} (c2 : List (Word × Nat)) (w : Word) :
    ∀ d : List (Word × β),
      dictGet (d.filter (fun p => c2.any (fun q => decide (q.1 = p.1)))) w =
        if c2.any (fun q => decide (q.1 = w)) then dictGet d w else none := by
  intro d
  induction d with
  | nil =>
    rw [List.filter_nil]
    split <;> rfl
  | cons p ps ih =>
    rw [List.filter_cons]
    have hpw : dictGet (p :: ps) w = if p.1 = w then some p.2 else dictGet ps w := rfl
    by_cases hk : p.1 = w
    · subst hk
      by_cases hP : (c2.any fun q => decide (q.1 = p.1)) = true
      · rw [if_pos hP, if_pos hP, hpw, if_pos rfl]
        simp [dictGet]
      · rw [if_neg hP, ih, if_neg hP, if_neg hP]
    · by_cases hP : (c2.any fun q => decide (q.1 = p.1)) = true
      · rw [if_pos hP]
        simp only [dictGet, if_neg hk]
        rw [ih]
      · rw [if_neg hP, ih, hpw, if_neg hk]

/-- C9: capping a cache of more than `k` entries at `k` keeps exactly `k` entries, all
drawn from the original counter, every kept entry's use count at least every evicted
entry's; the buffer keeps exactly the entries whose token survived in the counter
(given the reachable-state invariant that buffer and counter hold the same tokens);
and a lookup of an evicted token is a miss that invokes the wrapped strategy again. -/
theorem C9_compatify_eviction (st : LookupBuffer) (k : Nat)
    (hlen : k < st.counter.length)
    (hsync : ∀ w, (dictGet st.buffer w).isSome = (dictGet st.counter w).isSome) :
    (compatify_buffer st k).counter.length = k ∧
    (∀ p ∈ (compatify_buffer st k).counter, p ∈ st.counter) ∧
    (∀ p ∈ (compatify_buffer st k).counter, ∀ q ∈ st.counter,
      q ∉ (compatify_buffer st k).counter → q.2 ≤ p.2) ∧
    (∀ w, (dictGet (compatify_buffer st k).buffer w).isSome =
      (dictGet (compatify_buffer st k).counter w).isSome) ∧
    (∀ (lookup : Word → Nat → LookupResult) (offset : Nat) (w : Word),
      dictGet (compatify_buffer st k).counter w = none →
      (eojeol_lookup lookup (compatify_buffer st k) w offset).1 = lookup w offset) := by
  have hcond : ¬ st.counter.length ≤ k := not_le.mpr hlen
  have hperm : (st.counter.mergeSort (fun a b => decide (b.2 ≤ a.2))).Perm st.counter :=
    List.mergeSort_perm st.counter _
  have hslen : (st.counter.mergeSort (fun a b => decide (b.2 ≤ a.2))).length =
      st.counter.length := hperm.length_eq
  have hc2 : (compatify_buffer st k).counter =
      (st.counter.mergeSort (fun a b => decide (b.2 ≤ a.2))).take k := by
    unfold compatify_buffer
    rw [if_neg hcond]
  have hb2 : (compatify_buffer st k).buffer =
      st.buffer.filter (fun p =>
        ((st.counter.mergeSort (fun a b => decide (b.2 ≤ a.2))).take k).any
          (fun q => decide (q.1 = p.1))) := by
    unfold compatify_buffer
    rw [if_neg hcond]
  have hmemc2 : ∀ p ∈ (compatify_buffer st k).counter, p ∈ st.counter := by
    intro p hp
    rw [hc2] at hp
    exact hperm.subset (List.mem_of_mem_take hp)
  refine ⟨?_, hmemc2, ?_, ?_, ?_⟩
  · rw [hc2, List.length_take, hslen]
    omega
  · intro p hp q hq hqout
    rw [hc2] at hp hqout
    have hsort := @List.sorted_mergeSort (Word × Nat)
      (fun a b => decide (b.2 ≤ a.2))
      (fun a b c h1 h2 => by
        rw [decide_eq_true_eq] at h1 h2 ⊢
        omega)
      (fun a b => by
        rcases Nat.le_total b.2 a.2 with h | h <;> simp [h])
      st.counter
    have hqsorted : q ∈ st.counter.mergeSort (fun a b => decide (b.2 ≤ a.2)) :=
      hperm.mem_iff.mpr hq
    rw [← List.take_append_drop k (st.counter.mergeSort (fun a b => decide (b.2 ≤ a.2)))]
      at hqsorted hsort
    have hqdrop : q ∈ (st.counter.mergeSort (fun a b => decide (b.2 ≤ a.2))).drop k := by
      rcases List.mem_append.mp hqsorted with h | h
      · exact absurd h hqout
      · exact h
    obtain ⟨-, -, hcross⟩ := List.pairwise_append.mp hsort
    have := hcross p hp q hqdrop
    rw [decide_eq_true_eq] at this
    exact this
  · intro w
    rw [hb2, hc2, dictGet_filter_anykey]
    by_cases hkey : ((st.counter.mergeSort (fun a b => decide (b.2 ≤ a.2))).take k).any
        (fun q => decide (q.1 = w)) = true
    · rw [if_pos hkey]
      rw [List.any_eq_true] at hkey
      obtain ⟨q, hq, hqw⟩ := hkey
      rw [decide_eq_true_eq] at hqw
      have hqc : q ∈ st.counter := hperm.subset (List.mem_of_mem_take hq)
      have hsome : (dictGet ((st.counter.mergeSort
          (fun a b => decide (b.2 ≤ a.2))).take k) w).isSome = true :=
        (dictGet_isSome_iff _ w).mpr ⟨q, hq, hqw⟩
      have hcsome : (dictGet st.counter w).isSome = true :=
        (dictGet_isSome_iff _ w).mpr ⟨q, hqc, hqw⟩
      rw [hsome, hsync w, hcsome]
    · rw [if_neg hkey]
      have : (dictGet ((st.counter.mergeSort
          (fun a b => decide (b.2 ≤ a.2))).take k) w).isSome = false := by
        rw [← Bool.not_eq_true, dictGet_isSome_iff]
        intro ⟨q, hq, hqw⟩
        exact hkey (List.any_eq_true.mpr ⟨q, hq, by rw [decide_eq_true_eq]; exact hqw⟩)
      rw [this]
      rfl
  · intro lookup offset w hnone
    have h0 : dictGetD (compatify_buffer st k).counter w 0 = 0 := by
      unfold dictGetD
      rw [hnone]
      rfl
    simp only [eojeol_lookup, h0, if_pos]

theorem dictGet_isSome_keys {β γ : Type} (d1 : List (Word × β)) :
    ∀ (d2 : List (Word × γ)), d1.map (fun p => p.1) = d2.map (fun p => p.1) →
      ∀ w, (dictGet d1 w).isSome = (dictGet d2 w).isSome := by
  induction d1 with
  | nil =>
    intro d2 hk w
    rcases d2 with _ | ⟨q, qs⟩
    · rfl
    · exact absurd hk (by simp)
  | cons p ps ih =>
    intro d2 hk w
    rcases d2 with _ | ⟨q, qs⟩
    · exact absurd hk (by simp)
    · simp only [List.map_cons, List.cons.injEq] at hk
      simp only [dictGet, ← hk.1]
      split
      · rfl
      · exact ih qs hk.2 w

/-- Witness for the C9 statement: capping `stC9` (three entries) at 2 keeps exactly
the two highest-count tokens in counter and buffer, and evicted tokens recompute. -/
theorem C9_compatify_eviction_witness :
    (2 < stC9.counter.length ∧
      ∀ w, (dictGet stC9.buffer w).isSome = (dictGet stC9.counter w).isSome) ∧
    ((compatify_buffer stC9 2).counter.length = 2 ∧
      (∀ p ∈ (compatify_buffer stC9 2).counter, p ∈ stC9.counter) ∧
      (∀ p ∈ (compatify_buffer stC9 2).counter, ∀ q ∈ stC9.counter,
        q ∉ (compatify_buffer stC9 2).counter → q.2 ≤ p.2) ∧
      (∀ w, (dictGet (compatify_buffer stC9 2).buffer w).isSome =
        (dictGet (compatify_buffer stC9 2).counter w).isSome) ∧
      (∀ (lookup : Word → Nat → LookupResult) (offset : Nat) (w : Word),
        dictGet (compatify_buffer stC9 2).counter w = none →
        (eojeol_lookup lookup (compatify_buffer stC9 2) w offset).1 = lookup w offset)) := by
  have hsync : ∀ w, (dictGet stC9.buffer w).isSome = (dictGet stC9.counter w).isSome :=
    dictGet_isSome_keys stC9.buffer stC9.counter rfl
  exact ⟨⟨by decide, hsync⟩, C9_compatify_eviction stC9 2 (by decide) hsync⟩

/-- C8 counterexample: for the candidate `"가나다라"` with nouns `{"가", "가나다라"}`,
predicators `{"라"}` and domain features `{"나다"}`, the claim's rule marks it as a
compound (split `가나다 + 라` with the inner split `가 + 나다`, inner-left a known
single-character noun), but the code's inner scan `range(2, len(prefix))` never tries
an inner-left of length 1, so the code classifies the word as a confirmed noun. -/
theorem C8_counterexample_inner_split :
    is_noun_predicator_compound nounsC8 predsC8 posfC8 [] ['가', '나', '다', '라'] = false ∧
    claimCompound nounsC8 predsC8 posfC8 [] ['가', '나', '다', '라'] := by
  constructor
  · decide
  · refine Or.inr ⟨3, by omega, by decide, Or.inr ⟨Or.inr ⟨1, ?_, ?_, ?_, ?_⟩, ?_⟩⟩
    · decide
    · decide
    · decide
    · exact Or.inr (Or.inl (by decide))
    · decide

/-- The partition produced by `_remove_confused_nouns`: a candidate is confirmed as a
noun exactly when the compound test fails, and removed exactly when it holds. -/
theorem remove_confused_nouns_mem {S : Type} (nouns : List (Word × S))
    (predicators pos_features common_features : List Word) (p : Word × S)
    (hp : p ∈ nouns) :
    (p ∈ (remove_confused_nouns nouns predicators pos_features common_features).1 ↔
      is_noun_predicator_compound (nouns.map (fun q => q.1)) predicators pos_features
        common_features p.1 = false) ∧
    (p ∈ (remove_confused_nouns nouns predicators pos_features common_features).2 ↔
      is_noun_predicator_compound (nouns.map (fun q => q.1)) predicators pos_features
        common_features p.1 = true) := by
  unfold remove_confused_nouns
  constructor
  · rw [List.mem_filter]
    simp [hp, Bool.not_eq_true']
  · rw [List.mem_filter]
    simp [hp]

/-- C8 (amended): the code marks a candidate noun `w` of length `n` as compound exactly
when `w` is a known predicator, or some split with prefix length `j` (`2 ≤ j ≤ n-1`,
i.e. suffix length between 1 and `n-2`) has both parts known predicators, or has a
prefix that is a known noun or decomposable — where decomposability tries only the
inner splits whose inner-left part has length at least 2 — and a suffix that is a
known predicator. -/
theorem C8_compound_condition_amended
    (nouns predicators pos_features common_features : List Word) (noun : Word) :
    is_noun_predicator_compound nouns predicators pos_features common_features noun = true ↔
      amendedCompound nouns predicators pos_features common_features noun := by
  have hjosa : ∀ pfx, is_noun_josa nouns predicators pos_features common_features pfx = true ↔
      (pfx ∈ nouns ∨ amendedDecomposable nouns predicators pos_features common_features pfx) := by
    intro pfx
    unfold is_noun_josa amendedDecomposable is_pos_feature
    simp only [Bool.or_eq_true, decide_eq_true_eq, List.any_eq_true, List.mem_range'_1,
      Bool.and_eq_true]
    constructor
    · rintro (h | ⟨i, ⟨h2, hlt⟩, htake, hfeat⟩)
      · exact Or.inl h
      · exact Or.inr ⟨i, h2, by omega, htake, or_assoc.mp hfeat⟩
    · rintro (h | ⟨i, h2, hlt, htake, hfeat⟩)
      · exact Or.inl h
      · exact Or.inr ⟨i, ⟨h2, by omega⟩, htake, or_assoc.mpr hfeat⟩
  unfold is_noun_predicator_compound amendedCompound
  by_cases hp : noun ∈ predicators
  · simp [hp]
  · rw [if_neg hp]
    simp only [List.any_eq_true, List.mem_range'_1, Bool.or_eq_true, Bool.and_eq_true,
      decide_eq_true_eq]
    constructor
    · rintro ⟨j, ⟨h2, hlt⟩, hcase⟩
      refine Or.inr ⟨j, h2, by omega, ?_⟩
      rcases hcase with ⟨ht, hd⟩ | ⟨hj, hd⟩
      · exact Or.inl ⟨ht, hd⟩
      · exact Or.inr ⟨(hjosa (noun.take j)).mp hj, hd⟩
    · rintro (h | ⟨j, h2, hlt, hcase⟩)
      · exact absurd h hp
      · refine ⟨j, ⟨h2, by omega⟩, ?_⟩
        rcases hcase with ⟨ht, hd⟩ | ⟨hj, hd⟩
        · exact Or.inl ⟨ht, hd⟩
        · exact Or.inr ⟨(hjosa (noun.take j)).mpr hj, hd⟩

end Soynlp
